import Mathlib

/-!
# DynamicGraph: a shallow embedding of `dynamicgraph.cpp`

The C++ class `DynamicGraph` keeps three vectors: the live adjacency lists `adj_`, the
snapshot adjacency lists `snapshot_adj_` and the liveness flags `active_`.  Vectors are
modelled by lists and the handle type `Vertex = int` by `Int`; no arithmetic of the source
can overflow (it is `id + 1` on a `size_t` and counters bounded by the vector sizes).

* A failed `assert` of `check_vertex` is modelled by the result `none`.
* The `while` loops of `min_cost_routing` and `k_cores` are given an iteration budget
  computed from the sizes of the vectors; a loop that exceeds it returns `none`.  The
  lemmas `min_cost_routing_spec` and `k_cores_total` show that this never happens.
* Mutable local vectors are passed through the loops as extra arguments.
* A read outside a vector yields a default value in these definitions; the `_checked`
  copies of the queries return `none` instead, and are shown to agree with them on every
  well-formed state (`min_cost_routing_checked_eq`, `k_cores_checked_eq`).
* `peel_trace` is the loop of `k_cores` with a log of the finalizations.
-/

namespace DynamicGraph

/-- Read `l[v]` for an `int` index; `d` stands for an access outside the vector, which
the well-formedness invariant `WF` rules out. -/
def idx {α : Type} (l : List α) (v : Int) (d : α) : α :=
  if v < 0 then d else l.getD v.toNat d

/-- Semantics of `std::vector::resize(n, d)`. -/
def resize {α : Type} (l : List α) (n : Nat) (d : α) : List α :=
  l.take n ++ List.replicate (n - l.length) d

end DynamicGraph

/-- The private state of the class `DynamicGraph`. -/
structure DynamicGraph where
  adj_ : List (List Int)
  snapshot_adj_ : List (List Int)
  active_ : List Bool
  deriving DecidableEq

namespace DynamicGraph

/-- The constructor `DynamicGraph::DynamicGraph(num_vertices)`. -/
def new (num_vertices : Nat) : DynamicGraph :=
  { adj_ := List.replicate num_vertices [],
    snapshot_adj_ := List.replicate num_vertices [],
    active_ := List.replicate num_vertices true }

/-- The condition asserted by `check_vertex(v, n)`. -/
def check_vertex (v : Int) (n : Nat) : Bool :=
  decide (0 ≤ v) && decide (v.toNat < n)

/-- `DynamicGraph::add_vertex`. -/
def add_vertex (g : DynamicGraph) (v : Int) : DynamicGraph :=
  if v < 0 then g
  else
    let id := v.toNat
    let g1 : DynamicGraph :=
      if id ≥ g.adj_.length then
        { adj_ := resize g.adj_ (id + 1) [],
          snapshot_adj_ := resize g.snapshot_adj_ (id + 1) [],
          active_ := resize g.active_ (id + 1) false }
      else g
    { g1 with active_ := g1.active_.set id true }

/-- `DynamicGraph::remove_vertex`; `none` is the failed assertion. -/
def remove_vertex (g : DynamicGraph) (v : Int) : Option DynamicGraph :=
  if check_vertex v g.adj_.length then
    some { g with active_ := g.active_.set v.toNat false }
  else none

/-- The statement `if (find(l, x) == l.end()) l.push_back(x)`. -/
def push_unique (l : List Int) (x : Int) : List Int :=
  if x ∈ l then l else l ++ [x]

/-- `DynamicGraph::add_edge`; `none` is the failed assertion.  The two updates are
sequenced as in the source, so that `nu` and `nv` alias when `u = v`. -/
def add_edge (g : DynamicGraph) (u v : Int) : Option DynamicGraph :=
  let n := g.adj_.length
  if check_vertex u n && check_vertex v n then
    if idx g.active_ u false = false ∨ idx g.active_ v false = false then some g
    else
      let adj1 := g.adj_.set u.toNat (push_unique (idx g.adj_ u []) v)
      let adj2 := adj1.set v.toNat (push_unique (idx adj1 v []) u)
      some { g with adj_ := adj2 }
  else none

/-- `DynamicGraph::remove_edge`; `none` is the failed assertion. -/
def remove_edge (g : DynamicGraph) (u v : Int) : Option DynamicGraph :=
  let n := g.adj_.length
  if check_vertex u n && check_vertex v n then
    let adj1 := g.adj_.set u.toNat ((idx g.adj_ u []).filter (fun x => decide (x ≠ v)))
    let adj2 := adj1.set v.toNat ((idx adj1 v []).filter (fun x => decide (x ≠ u)))
    some { g with adj_ := adj2 }
  else none

/-- The adjacency structure every query reads:
`snapshot_adj_.empty() ? adj_ : snapshot_adj_`. -/
def view (g : DynamicGraph) : List (List Int) :=
  if g.snapshot_adj_.isEmpty then g.adj_ else g.snapshot_adj_

/-- `DynamicGraph::neighbors`; `none` is the failed assertion. -/
def neighbors (g : DynamicGraph) (v : Int) : Option (List Int) :=
  if check_vertex v g.adj_.length then
    if ¬ g.snapshot_adj_.isEmpty then some (idx g.snapshot_adj_ v [])
    else some (idx g.adj_ v [])
  else none

/-- `DynamicGraph::snapshot`: copy `adj_`, then clear the copied list of every vertex
whose flag is false. -/
def snapshot (g : DynamicGraph) : DynamicGraph :=
  { g with snapshot_adj_ :=
      (List.range g.adj_.length).map (fun v =>
        if g.active_.getD v false = false then [] else g.adj_.getD v []) }

/-! ### Routing -/

/-- The body of `for (Int v : G[u])` in the breadth-first search, on the triple
`(parent, depth, q)`. -/
def bfs_visit (active : List Bool) (u : Int)
    (st : List Int × List Int × List Int) (v : Int) :
    List Int × List Int × List Int :=
  if idx active v false = false then st
  else if idx st.2.1 v 0 = -1 then
    (st.1.set v.toNat u, st.2.1.set v.toNat (idx st.2.1 u 0 + 1), st.2.2 ++ [v])
  else st

/-- The loop `while (!q.empty())` of the breadth-first search.  It returns `found` with
the final `parent` and `depth` vectors; `none` means the iteration budget ran out. -/
def bfs_loop (G : List (List Int)) (active : List Bool) (t : Int) (max_depth : Int) :
    Nat → List Int → List Int → List Int → Option (Bool × List Int × List Int)
  | _, parent, depth, [] => some (false, parent, depth)
  | 0, _, _, _ :: _ => none
  | fuel + 1, parent, depth, u :: q =>
    if u = t then some (true, parent, depth)
    else if idx depth u 0 ≥ max_depth then bfs_loop G active t max_depth fuel parent depth q
    else
      let st := (idx G u []).foldl (bfs_visit active u) (parent, depth, q)
      bfs_loop G active t max_depth fuel st.1 st.2.1 st.2.2

/-- The loop `while (cur != s && parent[cur] != -1)` of the path reconstruction.  It
returns the final `cur` and `path`; `none` means the iteration budget ran out. -/
def reconstruct (parent : List Int) (s : Int) :
    Nat → Int → List Int → Option (Int × List Int)
  | 0, cur, path =>
    if cur ≠ s ∧ idx parent cur 0 ≠ -1 then none else some (cur, path)
  | fuel + 1, cur, path =>
    if cur ≠ s ∧ idx parent cur 0 ≠ -1 then
      reconstruct parent s fuel (idx parent cur 0) (path ++ [idx parent cur 0])
    else some (cur, path)

/-- The body of `for (const auto &p : pairs)`: the path pushed for one pair.  The
search dequeues every vertex at most once and the parent chain has at most `n` links,
so `n` iterations are granted to each loop. -/
def route (G : List (List Int)) (active : List Bool) (max_depth : Int)
    (p : Int × Int) : Option (List Int) :=
  let n := G.length
  let s := p.1
  let t := p.2
  if s < 0 ∨ t < 0 ∨ s.toNat ≥ n ∨ t.toNat ≥ n ∨
      idx active s false = false ∨ idx active t false = false then some []
  else
    let parent : List Int := List.replicate n (-1)
    let depth : List Int := (List.replicate n (-1)).set s.toNat 0
    match bfs_loop G active t max_depth n parent depth [s] with
    | none => none
    | some (found, parent, _) =>
      if found = false ∧ s ≠ t then some []
      else
        match reconstruct parent s n t [t] with
        | none => none
        | some (cur, path) => if cur ≠ s then some [] else some path.reverse

/-- Collect the per-pair results in input order. -/
def route_all (G : List (List Int)) (active : List Bool) (max_depth : Int) :
    List (Int × Int) → Option (List (List Int))
  | [] => some []
  | p :: ps =>
    match route G active max_depth p, route_all G active max_depth ps with
    | some path, some paths => some (path :: paths)
    | _, _ => none

/-- `DynamicGraph::min_cost_routing`; `none` means a loop exceeded its budget. -/
def min_cost_routing (g : DynamicGraph) (pairs : List (Int × Int))
    (max_depth : Int) : Option (List (List Int)) :=
  route_all g.view g.active_ max_depth pairs

/-! ### Core numbers -/

/-- The `std::priority_queue` with `std::greater` is a min-heap on pairs ordered
lexicographically; it is modelled by the sorted list of its entries, so that `top` is
the head and `pop` the tail. -/
def pq_emplace (x : Int × Int) : List (Int × Int) → List (Int × Int)
  | [] => [x]
  | y :: ys =>
    if x.1 < y.1 ∨ (x.1 = y.1 ∧ x.2 ≤ y.2) then x :: y :: ys else y :: pq_emplace x ys

/-- The initial degree of `v`: its number of active neighbours, 0 when `v` is inactive. -/
def init_degree (G : List (List Int)) (active : List Bool) (v : Nat) : Int :=
  if active.getD v false = false then 0
  else (G.getD v []).foldl (fun d u => if idx active u false = true then d + 1 else d) 0

/-- The body of `for (Int u : G[v])` in the peeling loop, on the pair `(degree, pq)`. -/
def peel_visit (active removed : List Bool)
    (st : List Int × List (Int × Int)) (u : Int) : List Int × List (Int × Int) :=
  if idx active u false = false ∨ idx removed u false = true then st
  else if idx st.1 u 0 > 0 then
    (st.1.set u.toNat (idx st.1 u 0 - 1), pq_emplace (idx st.1 u 0 - 1, u) st.2)
  else st

/-- The loop `while (!pq.empty())` of `k_cores`; `none` means the iteration budget ran
out. -/
def peel_loop (G : List (List Int)) (active : List Bool) :
    Nat → List (Int × Int) → List Int → List Bool → List Int → Option (List Int)
  | _, [], _, _, core => some core
  | 0, _ :: _, _, _, _ => none
  | fuel + 1, (deg_v, v) :: pq, degree, removed, core =>
    if idx removed v false = true ∨ deg_v ≠ idx degree v 0 then
      peel_loop G active fuel pq degree removed core
    else
      let removed1 := removed.set v.toNat true
      let core1 := core.set v.toNat deg_v
      let st := (idx G v []).foldl (peel_visit active removed1) (degree, pq)
      peel_loop G active fuel st.2 st.1 removed1 core1

/-- `DynamicGraph::k_cores`; `none` means the peeling loop exceeded its budget.  Every
entry pushed after the seeding lowers a non-negative tracked degree, so the number of
extractions is at most `n` plus the total length of the neighbour lists. -/
def k_cores (g : DynamicGraph) : Option (List Int) :=
  let G := g.view
  let n := G.length
  let degree : List Int := (List.range n).map (init_degree G g.active_)
  let core : List Int := List.replicate n 0
  let removed : List Bool := List.replicate n false
  let pq : List (Int × Int) :=
    (List.range n).foldl
      (fun pq v => if g.active_.getD v false = true then pq_emplace (degree.getD v 0, (v : Int)) pq
        else pq) []
  peel_loop G g.active_ (n + (G.map List.length).sum) pq degree removed core

/-! ### The check of the k-core test -/

/-- The loop `for (int v : core_vertices)` of `check_k_core_correctness`; `core_set`
holds the same handles as `core_vertices`.  `none` is a failed assertion of
`neighbors`. -/
def check_k_core_loop (g : DynamicGraph) (k : Int) (core_set : List Int) :
    List Int → Option Bool
  | [] => some true
  | v :: vs =>
    match g.neighbors v with
    | none => none
    | some neigh =>
      if ((neigh.filter (fun u => decide (u ∈ core_set))).length : Int) < k then some false
      else check_k_core_loop g k core_set vs

/-- `check_k_core_correctness` of `tests/kcore/large_imbalance_peripheral.cpp`. -/
def check_k_core_correctness (g : DynamicGraph) (k : Int) (core_vertices : List Int) :
    Option Bool :=
  if core_vertices.isEmpty then some true
  else check_k_core_loop g k core_vertices core_vertices

/-- The vertex set `{u : core[u] ≥ k}` of a vector of core numbers. -/
def core_at_least (core : List Int) (k : Int) : List Int :=
  ((List.range core.length).filter (fun u => decide (core.getD u 0 ≥ k))).map Int.ofNat

/-! ### Sequences of mutations -/

/-- The live mutations of the public interface. -/
inductive Mutation where
  | add_vertex (v : Int)
  | remove_vertex (v : Int)
  | add_edge (u v : Int)
  | remove_edge (u v : Int)
  deriving DecidableEq

/-- Run one mutation; `none` is a failed assertion. -/
def Mutation.apply (g : DynamicGraph) : Mutation → Option DynamicGraph
  | .add_vertex v => some (g.add_vertex v)
  | .remove_vertex v => g.remove_vertex v
  | .add_edge u v => g.add_edge u v
  | .remove_edge u v => g.remove_edge u v

/-- Run a sequence of mutations from left to right, stopping at a failed assertion. -/
def run (g : DynamicGraph) : List Mutation → Option DynamicGraph
  | [] => some g
  | m :: ms => (m.apply g).bind (fun g1 => run g1 ms)

/-- Every stored handle of `G` is an index into a vector of length `n`. -/
def InRange (G : List (List Int)) (n : Nat) : Prop :=
  ∀ l ∈ G, ∀ x ∈ l, 0 ≤ x ∧ x.toNat < n

instance (G : List (List Int)) (n : Nat) : Decidable (InRange G n) := by
  unfold InRange; infer_instance

/-- Well-formed engine states: the three vectors have one length and every stored
handle is in range.  Every state the public interface can produce is well formed. -/
def WF (g : DynamicGraph) : Prop :=
  g.active_.length = g.adj_.length ∧ g.snapshot_adj_.length = g.adj_.length ∧
  InRange g.adj_ g.adj_.length ∧ InRange g.snapshot_adj_ g.adj_.length

instance (g : DynamicGraph) : Decidable (WF g) := by
  unfold WF; infer_instance

/-! ### Example states -/

/-- The path graph 0-1-2-3-4 as built by `DynamicGraph g(5)` and four `add_edge` calls. -/
def path5_live : DynamicGraph :=
  { adj_ := [[1], [0, 2], [1, 3], [2, 4], [3]],
    snapshot_adj_ := [[], [], [], [], []],
    active_ := [true, true, true, true, true] }

/-- The path graph 0-1-2-3-4, frozen with `snapshot()`. -/
def path5 : DynamicGraph := path5_live.snapshot

/-- The cycle 0-1-2-3-4-0 as built by `DynamicGraph g(5)` and five `add_edge` calls. -/
def cycle5_live : DynamicGraph :=
  { adj_ := [[1, 4], [0, 2], [1, 3], [2, 4], [3, 0]],
    snapshot_adj_ := [[], [], [], [], []],
    active_ := [true, true, true, true, true] }

/-- The cycle 0-1-2-3-4-0, frozen with `snapshot()`. -/
def cycle5 : DynamicGraph := cycle5_live.snapshot

/-- The edge 0-1 after `remove_vertex(1)`: built by `DynamicGraph g(2)`, `add_edge(0, 1)`
and `remove_vertex(1)`. -/
def edge_removed_live : DynamicGraph :=
  { adj_ := [[1], [0]], snapshot_adj_ := [[], []], active_ := [true, false] }

/-! ### Vocabulary of the statements -/

/-- The engine states the public interface can produce: construction, then any
sequence of mutations that pass their assertions and of `snapshot()` calls. -/
inductive Reachable : DynamicGraph → Prop
  | new (n : Nat) : Reachable (DynamicGraph.new n)
  | mutate {g g1 : DynamicGraph} (m : Mutation) : Reachable g → m.apply g = some g1 →
      Reachable g1
  | snapshot {g : DynamicGraph} : Reachable g → Reachable g.snapshot

/-- The three vectors of the engine have one length. -/
def LenInv (g : DynamicGraph) : Prop :=
  g.active_.length = g.adj_.length ∧ g.snapshot_adj_.length = g.adj_.length

/-- The handle `v` indexes a vector of length `n`. -/
def InR (n : Nat) (v : Int) : Prop := 0 ≤ v ∧ v.toNat < n

instance (n : Nat) (v : Int) : Decidable (InR n v) := by
  unfold InR; infer_instance

/-- A walk of the view through active vertices: every vertex on `p` is active and each
vertex occurs in the neighbour list of its predecessor. -/
def IsWalk (G : List (List Int)) (active : List Bool) (p : List Int) : Prop :=
  List.Chain' (fun a c => c ∈ idx G a []) p ∧ ∀ v ∈ p, idx active v false = true

/-- A walk of the view through active vertices that starts at `s` and ends at `t`. -/
def WalkFromTo (G : List (List Int)) (active : List Bool) (s t : Int) (p : List Int) : Prop :=
  IsWalk G active p ∧ p.head? = some s ∧ p.getLast? = some t

/-- What `min_cost_routing` promises for the path pushed for the pair `p`: a non-empty
path is a walk from `p.1` to `p.2` through active vertices, of at most `md + 1` vertices
when `0 ≤ md` and no longer than any other such walk; for `0 ≤ md` the path is empty
exactly when an endpoint is out of range or inactive or no walk of at most `md` edges
leads from `p.1` to `p.2`. -/
def RouteSpec (G : List (List Int)) (active : List Bool) (md : Int) (p : Int × Int)
    (path : List Int) : Prop :=
  (path ≠ [] → WalkFromTo G active p.1 p.2 path) ∧
  (path ≠ [] → 0 ≤ md → (path.length : Int) ≤ md + 1) ∧
  (path ≠ [] → ∀ w, WalkFromTo G active p.1 p.2 w → path.length ≤ w.length) ∧
  (0 ≤ md → (path = [] ↔ (¬ InR G.length p.1 ∨ ¬ InR G.length p.2 ∨
      idx active p.1 false = false ∨ idx active p.2 false = false ∨
      ¬ ∃ w, WalkFromTo G active p.1 p.2 w ∧ (w.length : Int) ≤ md + 1)))

/-- The sum of the tracked degrees, each counted from 0. -/
def degSum (degree : List Int) : Nat := (degree.map Int.toNat).sum

/-- The mutations that edit edges only. -/
def Mutation.isEdgeEdit : Mutation → Bool
  | .add_edge _ _ => true
  | .remove_edge _ _ => true
  | _ => false

/-- Loop invariant of the breadth-first search from `s` towards `t` with bound `md`.
`q` is the queue; `u` is the vertex whose neighbour list is being scanned and `rest`
the part of that list still to scan (`rest = []` between two iterations of the
`while` loop); `b` is the depth of the last dequeued vertex and `m` bounds the number
of iterations still to come. -/
structure BfsInv (G : List (List Int)) (active : List Bool) (s t md : Int)
    (parent depth : List Int) (q : List Int) (u : Int) (rest : List Int) (b : Int)
    (m : Nat) : Prop where
  grange : InRange G G.length
  plen : parent.length = G.length
  dlen : depth.length = G.length
  ds : idx depth s 0 = 0
  qin : ∀ v ∈ q, InR G.length v ∧ idx depth v 0 ≠ -1
  disc : ∀ v, InR G.length v → idx depth v 0 ≠ -1 →
    idx active v false = true ∧
    (v = s ∨ (InR G.length (idx parent v 0) ∧ idx depth (idx parent v 0) 0 ≠ -1 ∧
      idx depth v 0 = idx depth (idx parent v 0) 0 + 1 ∧ v ∈ idx G (idx parent v 0) [] ∧
      idx depth (idx parent v 0) 0 < md))
  dnn : ∀ v, InR G.length v → -1 ≤ idx depth v 0
  cnt : ∀ v, InR G.length v → idx depth v 0 ≠ -1 →
    idx depth v 0 + depth.count (-1) < G.length
  meas : q.length + depth.count (-1) ≤ m
  sorted : q.Pairwise (fun a c => idx depth a 0 ≤ idx depth c 0)
  qbound : ∀ v ∈ q, b ≤ idx depth v 0 ∧ idx depth v 0 ≤ b + 1
  nonq : ∀ v, InR G.length v → idx depth v 0 ≠ -1 → v ∉ q → idx depth v 0 ≤ b
  proc : ∀ v, InR G.length v → idx depth v 0 ≠ -1 → v ∉ q →
    v ≠ t ∧ (md ≤ idx depth v 0 ∨ ∀ w ∈ idx G v [], idx active w false = true →
      (v = u ∧ w ∈ rest) ∨ (idx depth w 0 ≠ -1 ∧ idx depth w 0 ≤ idx depth v 0 + 1))
  mid : ∀ w ∈ rest,
    w ∈ idx G u [] ∧ InR G.length u ∧ idx depth u 0 = b ∧ b < md ∧ 0 ≤ b

/-- The live adjacency lists after the two insertions of `add_edge(u, v)`. -/
def adj_add (adj : List (List Int)) (u v : Int) : List (List Int) :=
  (adj.set u.toNat (push_unique (idx adj u []) v)).set v.toNat
    (push_unique (idx (adj.set u.toNat (push_unique (idx adj u []) v)) v []) u)

/-- The live adjacency lists after the two erasures of `remove_edge(u, v)`. -/
def adj_remove (adj : List (List Int)) (u v : Int) : List (List Int) :=
  (adj.set u.toNat ((idx adj u []).filter (fun x => decide (x ≠ v)))).set v.toNat
    ((idx (adj.set u.toNat ((idx adj u []).filter (fun x => decide (x ≠ v)))) v []).filter
      (fun x => decide (x ≠ u)))

/-- The live graph is symmetric: `v` is listed by `u` exactly when `u` is listed by `v`. -/
def Symmetric (g : DynamicGraph) : Prop :=
  ∀ u v, v ∈ idx g.adj_ u [] ↔ u ∈ idx g.adj_ v []

/-- No neighbour list, live or snapshot, holds a handle twice. -/
def NoMultiEdge (g : DynamicGraph) : Prop :=
  (∀ l ∈ g.adj_, l.Nodup) ∧ (∀ l ∈ g.snapshot_adj_, l.Nodup)

/-- The loop `while (!pq.empty())` of `k_cores` with a log: besides the core numbers it
returns the extracted entries `(deg_v, v)` that finalized a vertex, in the order of their
extraction, and the number of entries the loop inserted. -/
def peel_trace (G : List (List Int)) (active : List Bool) :
    Nat → List (Int × Int) → List Int → List Bool → List Int →
      Option (List Int × List (Int × Int) × Nat)
  | _, [], _, _, core => some (core, [], 0)
  | 0, _ :: _, _, _, _ => none
  | fuel + 1, (deg_v, v) :: pq, degree, removed, core =>
    if idx removed v false = true ∨ deg_v ≠ idx degree v 0 then
      peel_trace G active fuel pq degree removed core
    else
      let removed1 := removed.set v.toNat true
      let core1 := core.set v.toNat deg_v
      let st := (idx G v []).foldl (peel_visit active removed1) (degree, pq)
      (peel_trace G active fuel st.2 st.1 removed1 core1).map
        (fun r => (r.1, (deg_v, v) :: r.2.1, r.2.2 + (st.2.length - pq.length)))

/-- The seeding loop of `k_cores`: one entry for every active vertex. -/
def seed_pq (active : List Bool) (degree : List Int) (n : Nat) : List (Int × Int) :=
  (List.range n).foldl
    (fun pq v => if active.getD v false = true then pq_emplace (degree.getD v 0, (v : Int)) pq
      else pq) []

/-- `DynamicGraph::k_cores` with the log of `peel_trace`; the insertions of the seeding
loop are counted too. -/
def k_cores_trace (g : DynamicGraph) : Option (List Int × List (Int × Int) × Nat) :=
  let G := g.view
  let n := G.length
  let degree : List Int := (List.range n).map (init_degree G g.active_)
  let pq := seed_pq g.active_ degree n
  (peel_trace G g.active_ (n + (G.map List.length).sum) pq degree
      (List.replicate n false) (List.replicate n 0)).map
    (fun r => (r.1, r.2.1, r.2.2 + pq.length))

/-- The number of active vertices among the `n` vertices of the view. -/
def num_active (active : List Bool) (n : Nat) : Nat :=
  ((List.range n).filter (fun v => active.getD v false)).length


/-- What holds of the vectors of `k_cores` whenever the peeling loop tests its condition:
the vectors have the length of the view, every queued entry names an active vertex, and
every active vertex that is not finalized has a queued entry with its tracked degree. -/
def PeelPre (G : List (List Int)) (active : List Bool) (pq : List (Int × Int))
    (degree : List Int) (removed : List Bool) (core : List Int) : Prop :=
  active.length = G.length ∧ degree.length = G.length ∧ removed.length = G.length ∧
  core.length = G.length ∧
  (∀ e ∈ pq, InR G.length e.2 ∧ idx active e.2 false = true) ∧
  (∀ v, InR G.length v → idx active v false = true → idx removed v false = false →
    (idx degree v 0, v) ∈ pq)

/-- What the rest of the peeling loop does, started with the vectors `degree`, `removed`
and `core`: it finalizes every active vertex that is not yet finalized, each once, with
the degree of the extracted entry, leaves the other core numbers alone, and inserts at
most as many entries as the tracked degrees sum to. -/
def PeelPost (G : List (List Int)) (active : List Bool) (degree : List Int)
    (removed : List Bool) (core : List Int) (r : List Int × List (Int × Int) × Nat) : Prop :=
  r.1.length = core.length ∧
  (∀ e ∈ r.2.1, InR G.length e.2 ∧ idx active e.2 false = true ∧
    idx removed e.2 false = false ∧ idx r.1 e.2 0 = e.1) ∧
  (r.2.1.map Prod.snd).Nodup ∧
  (∀ v, InR G.length v → idx active v false = true → idx removed v false = false →
    v ∈ r.2.1.map Prod.snd) ∧
  (∀ v, v ∉ r.2.1.map Prod.snd → idx r.1 v 0 = idx core v 0) ∧
  r.2.2 ≤ degSum degree

/-! ### The queries with every vector access checked

The definitions below repeat `neighbors`, `min_cost_routing` and `k_cores` with every
read `x[i]` and write `x[i] = e` of the source guarded by a bounds check: the result is
`none` as soon as an index leaves its vector. -/

/-- A checked read of `l[v]`: `none` when `v` is not an index of `l`. -/
def idx? {α : Type} (l : List α) (v : Int) : Option α :=
  if v < 0 then none else l[v.toNat]?

/-- A checked write `l[v] = x`: `none` when `v` is not an index of `l`. -/
def set? {α : Type} (l : List α) (v : Int) (x : α) : Option (List α) :=
  if 0 ≤ v ∧ v.toNat < l.length then some (l.set v.toNat x) else none

/-- A `for` loop over a list whose body may stop on a failed check. -/
def foldl_checked {σ ι : Type} (f : σ → ι → Option σ) : σ → List ι → Option σ
  | st, [] => some st
  | st, v :: vs => (f st v).bind (fun st1 => foldl_checked f st1 vs)

/-- `DynamicGraph::neighbors` with checked accesses. -/
def neighbors_checked (g : DynamicGraph) (v : Int) : Option (List Int) :=
  if check_vertex v g.adj_.length then
    if ¬ g.snapshot_adj_.isEmpty then idx? g.snapshot_adj_ v
    else idx? g.adj_ v
  else none

/-- The body of `for (Vertex v : G[u])` of the search, with checked accesses. -/
def bfs_visit_checked (active : List Bool) (u : Int)
    (st : List Int × List Int × List Int) (v : Int) :
    Option (List Int × List Int × List Int) :=
  (idx? active v).bind (fun a =>
    if a = false then some st
    else (idx? st.2.1 v).bind (fun dv =>
      if dv = -1 then
        (idx? st.2.1 u).bind (fun du =>
          (set? st.2.1 v (du + 1)).bind (fun depth1 =>
            (set? st.1 v u).bind (fun parent1 => some (parent1, depth1, st.2.2 ++ [v]))))
      else some st))

/-- The loop `while (!q.empty())` of the search, with checked accesses. -/
def bfs_loop_checked (G : List (List Int)) (active : List Bool) (t : Int) (max_depth : Int) :
    Nat → List Int → List Int → List Int → Option (Bool × List Int × List Int)
  | _, parent, depth, [] => some (false, parent, depth)
  | 0, _, _, _ :: _ => none
  | fuel + 1, parent, depth, u :: q =>
    if u = t then some (true, parent, depth)
    else (idx? depth u).bind (fun du =>
      if du ≥ max_depth then bfs_loop_checked G active t max_depth fuel parent depth q
      else (idx? G u).bind (fun nb =>
        (foldl_checked (bfs_visit_checked active u) (parent, depth, q) nb).bind (fun st =>
          bfs_loop_checked G active t max_depth fuel st.1 st.2.1 st.2.2)))

/-- The loop of the path reconstruction, with checked accesses; `parent[cur]` is read
only when `cur != s`. -/
def reconstruct_checked (parent : List Int) (s : Int) :
    Nat → Int → List Int → Option (Int × List Int)
  | 0, cur, path =>
    if cur ≠ s then
      (idx? parent cur).bind (fun p => if p ≠ -1 then none else some (cur, path))
    else some (cur, path)
  | fuel + 1, cur, path =>
    if cur ≠ s then
      (idx? parent cur).bind (fun p =>
        if p ≠ -1 then reconstruct_checked parent s fuel p (path ++ [p])
        else some (cur, path))
    else some (cur, path)

/-- The body of `for (const auto &p : pairs)`, with checked accesses. -/
def route_checked (G : List (List Int)) (active : List Bool) (max_depth : Int)
    (p : Int × Int) : Option (List Int) :=
  let n := G.length
  let s := p.1
  let t := p.2
  if s < 0 ∨ t < 0 ∨ s.toNat ≥ n ∨ t.toNat ≥ n then some []
  else (idx? active s).bind (fun as =>
    if as = false then some []
    else (idx? active t).bind (fun at_ =>
      if at_ = false then some []
      else
        let parent : List Int := List.replicate n (-1)
        (set? (List.replicate n (-1)) s 0).bind (fun depth =>
          match bfs_loop_checked G active t max_depth n parent depth [s] with
          | none => none
          | some (found, parent, _) =>
            if found = false ∧ s ≠ t then some []
            else
              match reconstruct_checked parent s n t [t] with
              | none => none
              | some (cur, path) => if cur ≠ s then some [] else some path.reverse)))

/-- Collect the per-pair results of `route_checked` in input order. -/
def route_all_checked (G : List (List Int)) (active : List Bool) (max_depth : Int) :
    List (Int × Int) → Option (List (List Int))
  | [] => some []
  | p :: ps =>
    match route_checked G active max_depth p, route_all_checked G active max_depth ps with
    | some path, some paths => some (path :: paths)
    | _, _ => none

/-- `DynamicGraph::min_cost_routing` with checked accesses. -/
def min_cost_routing_checked (g : DynamicGraph) (pairs : List (Int × Int))
    (max_depth : Int) : Option (List (List Int)) :=
  route_all_checked g.view g.active_ max_depth pairs

/-- Gather the results of a loop whose iterations may stop on a failed check. -/
def collect {α : Type} : List (Option α) → Option (List α)
  | [] => some []
  | x :: xs => x.bind (fun a => (collect xs).map (fun as => a :: as))

/-- The initial degree of `v`, with checked accesses. -/
def init_degree_checked (G : List (List Int)) (active : List Bool) (v : Nat) : Option Int :=
  (active[v]?).bind (fun a =>
    if a = false then some 0
    else (G[v]?).bind (fun nb =>
      foldl_checked
        (fun d u => (idx? active u).map (fun au => if au = true then d + 1 else d)) 0 nb))

/-- The seeding loop of `k_cores`, with checked accesses. -/
def seed_pq_checked (active : List Bool) (degree : List Int) (n : Nat) :
    Option (List (Int × Int)) :=
  foldl_checked
    (fun pq (v : Nat) => (active[v]?).bind (fun a =>
      if a = true then (degree[v]?).map (fun d => pq_emplace (d, (v : Int)) pq)
      else some pq)) [] (List.range n)

/-- The body of `for (Vertex u : G[v])` of the peeling loop, with checked accesses;
`removed[u]` is read only when `active_[u]` holds. -/
def peel_visit_checked (active removed : List Bool)
    (st : List Int × List (Int × Int)) (u : Int) : Option (List Int × List (Int × Int)) :=
  (idx? active u).bind (fun a =>
    if a = false then some st
    else (idx? removed u).bind (fun r =>
      if r = true then some st
      else (idx? st.1 u).bind (fun d =>
        if d > 0 then
          (set? st.1 u (d - 1)).map (fun degree1 => (degree1, pq_emplace (d - 1, u) st.2))
        else some st)))

/-- The loop `while (!pq.empty())` of `k_cores`, with checked accesses; `degree[v]` is
read only when `removed[v]` is false. -/
def peel_loop_checked (G : List (List Int)) (active : List Bool) :
    Nat → List (Int × Int) → List Int → List Bool → List Int → Option (List Int)
  | _, [], _, _, core => some core
  | 0, _ :: _, _, _, _ => none
  | fuel + 1, (deg_v, v) :: pq, degree, removed, core =>
    (idx? removed v).bind (fun r =>
      if r = true then peel_loop_checked G active fuel pq degree removed core
      else (idx? degree v).bind (fun d =>
        if deg_v ≠ d then peel_loop_checked G active fuel pq degree removed core
        else
          (set? removed v true).bind (fun removed1 =>
            (set? core v deg_v).bind (fun core1 =>
              (idx? G v).bind (fun nb =>
                (foldl_checked (peel_visit_checked active removed1) (degree, pq) nb).bind
                  (fun st => peel_loop_checked G active fuel st.2 st.1 removed1 core1))))))

/-- `DynamicGraph::k_cores` with checked accesses. -/
def k_cores_checked (g : DynamicGraph) : Option (List Int) :=
  let G := g.view
  let n := G.length
  (collect ((List.range n).map (init_degree_checked G g.active_))).bind (fun degree =>
    (seed_pq_checked g.active_ degree n).bind (fun pq =>
      peel_loop_checked G g.active_ (n + (G.map List.length).sum) pq degree
        (List.replicate n false) (List.replicate n 0)))

end DynamicGraph

/-! ## Auxiliary facts on indexed reads -/

namespace DynamicGraph

lemma idx_nonneg {α : Type} (l : List α) {v : Int} (d : α) (h : 0 ≤ v) :
    idx l v d = l.getD v.toNat d := by
  unfold idx
  rw [if_neg (not_lt.mpr h)]

lemma idx_set_self {α : Type} {l : List α} {w : Int} (x d : α) (h : InR l.length w) :
    idx (l.set w.toNat x) w d = x := by
  rw [idx_nonneg _ _ h.1, List.getD_eq_getElem?_getD, List.getElem?_set_self h.2]
  rfl

lemma idx_set_ne {α : Type} (l : List α) {v w : Int} (x d : α) (hw : 0 ≤ w) (h : v ≠ w) :
    idx (l.set w.toNat x) v d = idx l v d := by
  by_cases hv : v < 0
  · unfold idx
    rw [if_pos hv, if_pos hv]
  · have hne : w.toNat ≠ v.toNat := by omega
    unfold idx
    rw [if_neg hv, if_neg hv, List.getD_eq_getElem?_getD, List.getD_eq_getElem?_getD,
      List.getElem?_set_ne hne]

lemma idx_replicate {α : Type} (n : Nat) (a d : α) {v : Int} (h : InR n v) :
    idx (List.replicate n a) v d = a := by
  rw [idx_nonneg _ _ h.1, List.getD_eq_getElem?_getD, List.getElem?_replicate, if_pos h.2]
  rfl

lemma idx_mem_list {α : Type} {G : List (List α)} {u : Int} {w : α}
    (h : w ∈ idx G u []) : ∃ l ∈ G, w ∈ l := by
  unfold idx at h
  split at h
  · simp at h
  · rw [List.getD_eq_getElem?_getD] at h
    cases hq : G[u.toNat]? with
    | none => rw [hq] at h; simp at h
    | some l =>
      rw [hq] at h
      exact ⟨l, List.mem_iff_getElem?.mpr ⟨_, hq⟩, h⟩

lemma inR_of_mem_idx {G : List (List Int)} {n : Nat} (hG : InRange G n) {u w : Int}
    (h : w ∈ idx G u []) : InR n w := by
  obtain ⟨l, hl, hw⟩ := idx_mem_list h
  exact hG l hl w hw

lemma inR_of_active {active : List Bool} {v : Int} (h : idx active v false = true) :
    InR active.length v := by
  by_cases hv : v < 0
  · unfold idx at h
    rw [if_pos hv] at h
    simp at h
  · unfold idx at h
    rw [if_neg hv] at h
    refine ⟨by omega, ?_⟩
    by_contra hlt
    rw [List.getD_eq_getElem?_getD, List.getElem?_eq_none (by omega)] at h
    simp at h

/-- Overwriting an entry equal to `a` by another value lowers the number of `a`s by one. -/
lemma count_set_of_eq (l : List Int) (i : Nat) (a x : Int) (hi : i < l.length)
    (hl : l.getD i 0 = a) (hx : x ≠ a) : (l.set i x).count a + 1 = l.count a := by
  rw [List.count_set _ _ _ _ hi]
  have h1 : l[i] = a := by
    rw [List.getD_eq_getElem?_getD, List.getElem?_eq_getElem hi] at hl
    simpa using hl
  have h2 : 0 < l.count a := by
    rw [List.count_pos_iff]
    rw [← h1]
    exact List.getElem_mem hi
  simp [h1, hx]
  omega

end DynamicGraph

/-! ## The breadth-first search of `min_cost_routing` -/

namespace DynamicGraph

variable {G : List (List Int)} {active : List Bool} {s t md : Int}

/-- A neighbour that needs no further treatment can be dropped from the pending list. -/
lemma BfsInv.drop {parent depth q : List Int} {u w : Int} {rest : List Int} {b : Int}
    {m : Nat} (h : BfsInv G active s t md parent depth q u (w :: rest) b m)
    (hw : idx active w false = true → idx depth w 0 ≠ -1 ∧ idx depth w 0 ≤ b + 1) :
    BfsInv G active s t md parent depth q u rest b m := by
  have hu := (h.mid w (List.mem_cons_self _ _)).2.2.1
  refine { h with proc := ?_, mid := ?_ }
  · intro v hv hd hq
    obtain ⟨h1, h2⟩ := h.proc v hv hd hq
    refine ⟨h1, ?_⟩
    rcases h2 with h2 | h2
    · exact Or.inl h2
    · right
      intro w1 hw1 ha
      rcases h2 w1 hw1 ha with ⟨hvu, hmem⟩ | h3
      · rcases List.mem_cons.mp hmem with heq | hmem
        · right
          subst heq
          subst hvu
          rw [hu]
          exact hw ha
        · exact Or.inl ⟨hvu, hmem⟩
      · exact Or.inr h3
  · intro w1 hw1
    exact h.mid w1 (List.mem_cons_of_mem _ hw1)

/-- One execution of the body of `for (Vertex v : G[u])` keeps the invariant. -/
lemma BfsInv.visit {parent depth q : List Int} {u w : Int} {rest : List Int} {b : Int}
    {m : Nat} (h : BfsInv G active s t md parent depth q u (w :: rest) b m) :
    BfsInv G active s t md (bfs_visit active u (parent, depth, q) w).1
      (bfs_visit active u (parent, depth, q) w).2.1
      (bfs_visit active u (parent, depth, q) w).2.2 u rest b m := by
  obtain ⟨hwG, huR, hub, hbmd, hb0⟩ := h.mid w (List.mem_cons_self _ _)
  have hwR : InR G.length w := inR_of_mem_idx h.grange hwG
  unfold bfs_visit
  by_cases ha : idx active w false = false
  · rw [if_pos ha]
    exact h.drop (fun h1 => by rw [ha] at h1; cases h1)
  rw [if_neg ha]
  have ha1 : idx active w false = true := by simpa using ha
  by_cases hd : idx depth w 0 = -1
  swap
  · rw [if_neg hd]
    refine h.drop (fun _ => ⟨hd, ?_⟩)
    by_cases hq : w ∈ q
    · exact (h.qbound w hq).2
    · have := h.nonq w hwR hd hq
      omega
  rw [if_pos hd]
  dsimp only
  -- reads of the updated vectors
  have hne : ∀ v, idx depth v 0 ≠ -1 → v ≠ w := fun v hv hvw => hv (hvw ▸ hd)
  have hdw : idx (depth.set w.toNat (idx depth u 0 + 1)) w 0 = b + 1 := by
    rw [idx_set_self _ _ (by rw [h.dlen]; exact hwR), hub]
  have hdo : ∀ v, v ≠ w → idx (depth.set w.toNat (idx depth u 0 + 1)) v 0 = idx depth v 0 :=
    fun v hv => idx_set_ne _ _ _ hwR.1 hv
  have hpw : idx (parent.set w.toNat u) w 0 = u :=
    idx_set_self _ _ (by rw [h.plen]; exact hwR)
  have hpo : ∀ v, v ≠ w → idx (parent.set w.toNat u) v 0 = idx parent v 0 :=
    fun v hv => idx_set_ne _ _ _ hwR.1 hv
  have hudisc : idx depth u 0 ≠ -1 := by omega
  have huw : u ≠ w := hne u hudisc
  have hold : ∀ v, idx (depth.set w.toNat (idx depth u 0 + 1)) v 0 ≠ -1 → v ≠ w →
      idx depth v 0 ≠ -1 := fun v hv hvw => by rwa [hdo v hvw] at hv
  have hcount : (depth.set w.toNat (idx depth u 0 + 1)).count (-1) + 1 = depth.count (-1) := by
    apply count_set_of_eq
    · rw [h.dlen]; exact hwR.2
    · rw [← idx_nonneg _ _ hwR.1]; exact hd
    · omega
  refine
    { grange := h.grange, plen := ?_, dlen := ?_, ds := ?_, qin := ?_, disc := ?_, dnn := ?_,
      cnt := ?_, meas := ?_, sorted := ?_, qbound := ?_, nonq := ?_, proc := ?_, mid := ?_ }
  · rw [List.length_set]; exact h.plen
  · rw [List.length_set]; exact h.dlen
  · rw [hdo s (hne s (by rw [h.ds]; omega))]; exact h.ds
  · intro v hv
    rcases List.mem_append.mp hv with hv | hv
    · have := h.qin v hv
      exact ⟨this.1, by rw [hdo v (hne v this.2)]; exact this.2⟩
    · rw [List.mem_singleton] at hv
      subst hv
      exact ⟨hwR, by rw [hdw]; omega⟩
  · intro v hv hdv
    by_cases hvw : v = w
    · subst hvw
      refine ⟨ha1, Or.inr ?_⟩
      rw [hpw, hdw, hdo u huw, hub]
      exact ⟨huR, by omega, rfl, hwG, hbmd⟩
    · obtain ⟨h1, h2⟩ := h.disc v hv (hold v hdv hvw)
      refine ⟨h1, ?_⟩
      rcases h2 with h2 | ⟨h2, h3, h4, h5, h6⟩
      · exact Or.inl h2
      · right
        rw [hpo v hvw, hdo v hvw, hdo _ (hne _ h3)]
        exact ⟨h2, h3, h4, h5, h6⟩
  · intro v hv
    by_cases hvw : v = w
    · subst hvw; rw [hdw]; omega
    · rw [hdo v hvw]; exact h.dnn v hv
  · intro v hv hdv
    by_cases hvw : v = w
    · subst hvw
      rw [hdw]
      have := h.cnt u huR hudisc
      omega
    · rw [hdo v hvw]
      have := h.cnt v hv (hold v hdv hvw)
      omega
  · have := h.meas
    rw [List.length_append, List.length_singleton]
    omega
  · rw [List.pairwise_append]
    refine ⟨?_, List.pairwise_singleton _ _, ?_⟩
    · refine h.sorted.imp_of_mem ?_
      intro a c haq hcq hac
      rw [hdo a (hne a (h.qin a haq).2), hdo c (hne c (h.qin c hcq).2)]
      exact hac
    · intro a haq c hc
      rw [List.mem_singleton] at hc
      rw [hc, hdo a (hne a (h.qin a haq).2), hdw]
      exact (h.qbound a haq).2
  · intro v hv
    rcases List.mem_append.mp hv with hv | hv
    · rw [hdo v (hne v (h.qin v hv).2)]; exact h.qbound v hv
    · rw [List.mem_singleton] at hv
      subst hv
      rw [hdw]; omega
  · intro v hv hdv hq
    have hvw : v ≠ w := fun hvw => hq (by simp [hvw])
    rw [hdo v hvw]
    exact h.nonq v hv (hold v hdv hvw) (fun hq1 => hq (List.mem_append_left _ hq1))
  · intro v hv hdv hq
    have hvw : v ≠ w := fun hvw => hq (by simp [hvw])
    have hdv1 := hold v hdv hvw
    obtain ⟨h1, h2⟩ := h.proc v hv hdv1 (fun hq1 => hq (List.mem_append_left _ hq1))
    refine ⟨h1, ?_⟩
    rw [hdo v hvw]
    rcases h2 with h2 | h2
    · exact Or.inl h2
    · right
      intro w1 hw1 haw1
      rcases h2 w1 hw1 haw1 with ⟨hvu, hmem⟩ | ⟨h3, h4⟩
      · rcases List.mem_cons.mp hmem with heq | hmem
        · right
          subst heq
          subst hvu
          rw [hdw, hub]
          exact ⟨by omega, le_refl _⟩
        · exact Or.inl ⟨hvu, hmem⟩
      · right
        rw [hdo w1 (hne w1 h3)]
        exact ⟨h3, h4⟩
  · intro w1 hw1
    obtain ⟨h1, h2, h3, h4, h5⟩ := h.mid w1 (List.mem_cons_of_mem _ hw1)
    exact ⟨h1, h2, by rw [hdo u huw]; exact h3, h4, h5⟩


/-- The whole scan of a neighbour list keeps the invariant and empties the pending
list. -/
lemma BfsInv.scan {u : Int} {b : Int} {m : Nat} (rest : List Int) :
    ∀ (parent depth q : List Int), BfsInv G active s t md parent depth q u rest b m →
      BfsInv G active s t md (rest.foldl (bfs_visit active u) (parent, depth, q)).1
        (rest.foldl (bfs_visit active u) (parent, depth, q)).2.1
        (rest.foldl (bfs_visit active u) (parent, depth, q)).2.2 u [] b m := by
  induction rest with
  | nil => intro parent depth q h; exact h
  | cons w rest ih =>
    intro parent depth q h
    rw [List.foldl_cons]
    exact ih _ _ _ h.visit

/-- Dequeuing a vertex other than the target: either it is at the depth bound and is
not expanded, or its whole neighbour list becomes pending. -/
lemma BfsInv.pop {parent depth q : List Int} {u u0 : Int} {rest : List Int} {b : Int}
    {m : Nat} (h : BfsInv G active s t md parent depth (u :: q) u0 [] b m) (hut : u ≠ t)
    (hrest : (md ≤ idx depth u 0 ∧ rest = []) ∨ (idx depth u 0 < md ∧ rest = idx G u [])) :
    BfsInv G active s t md parent depth q u rest (idx depth u 0) (m - 1) := by
  have huq := h.qin u (List.mem_cons_self _ _)
  have hub := h.qbound u (List.mem_cons_self _ _)
  have hsort := List.pairwise_cons.mp h.sorted
  refine
    { grange := h.grange, plen := h.plen, dlen := h.dlen, ds := h.ds, qin := ?_,
      disc := h.disc, dnn := h.dnn, cnt := h.cnt, meas := ?_, sorted := hsort.2,
      qbound := ?_, nonq := ?_, proc := ?_, mid := ?_ }
  · intro v hv
    exact h.qin v (List.mem_cons_of_mem _ hv)
  · have := h.meas
    rw [List.length_cons] at this
    omega
  · intro v hv
    have h1 := hsort.1 v hv
    have h2 := h.qbound v (List.mem_cons_of_mem _ hv)
    omega
  · intro v hv hd hq
    by_cases hvu : v = u
    · rw [hvu]
    · have := h.nonq v hv hd (by simp [hvu, hq])
      omega
  · intro v hv hd hq
    by_cases hvu : v = u
    · subst hvu
      refine ⟨hut, ?_⟩
      rcases hrest with ⟨h1, _⟩ | ⟨_, h2⟩
      · exact Or.inl h1
      · right
        intro w hw _
        exact Or.inl ⟨rfl, by rw [h2]; exact hw⟩
    · obtain ⟨h1, h2⟩ := h.proc v hv hd (by simp [hvu, hq])
      refine ⟨h1, ?_⟩
      rcases h2 with h2 | h2
      · exact Or.inl h2
      · right
        intro w hw haw
        rcases h2 w hw haw with ⟨_, hmem⟩ | h3
        · simp at hmem
        · exact Or.inr h3
  · intro w hw
    rcases hrest with ⟨_, h2⟩ | ⟨h1, h2⟩
    · rw [h2] at hw; simp at hw
    · have := h.dnn u huq.1
      exact ⟨by rw [h2] at hw; exact hw, huq.1, rfl, h1, by have := huq.2; omega⟩

/-- The state in which the search starts satisfies the invariant. -/
lemma BfsInv.init (hG : InRange G G.length) (hs : InR G.length s)
    (has : idx active s false = true) :
    BfsInv G active s t md (List.replicate G.length (-1))
      ((List.replicate G.length (-1)).set s.toNat 0) [s] s [] 0 G.length := by
  have hlen : (List.replicate G.length (-1 : Int)).length = G.length := List.length_replicate _ _
  have hds : idx ((List.replicate G.length (-1 : Int)).set s.toNat 0) s 0 = 0 :=
    idx_set_self _ _ (by rw [hlen]; exact hs)
  have hdo : ∀ v, InR G.length v → v ≠ s →
      idx ((List.replicate G.length (-1 : Int)).set s.toNat 0) v 0 = -1 := by
    intro v hv hvs
    rw [idx_set_ne _ _ _ hs.1 hvs, idx_replicate _ _ _ hv]
  have hcount : ((List.replicate G.length (-1 : Int)).set s.toNat 0).count (-1) + 1
      = G.length := by
    rw [count_set_of_eq _ _ (-1) 0 (by rw [hlen]; exact hs.2)
      (by rw [← idx_nonneg _ _ hs.1, idx_replicate _ _ _ hs]) (by omega)]
    simp
  have honly : ∀ v, InR G.length v →
      idx ((List.replicate G.length (-1 : Int)).set s.toNat 0) v 0 ≠ -1 → v = s := by
    intro v hv hd
    by_contra hvs
    exact hd (hdo v hv hvs)
  refine
    { grange := hG, plen := hlen, dlen := ?_, ds := hds, qin := ?_, disc := ?_, dnn := ?_,
      cnt := ?_, meas := ?_, sorted := List.pairwise_singleton _ _, qbound := ?_,
      nonq := ?_, proc := ?_, mid := ?_ }
  · rw [List.length_set]; exact hlen
  · intro v hv
    rw [List.mem_singleton] at hv
    subst hv
    exact ⟨hs, by rw [hds]; omega⟩
  · intro v hv hd
    have := honly v hv hd
    subst this
    exact ⟨has, Or.inl rfl⟩
  · intro v hv
    by_cases hvs : v = s
    · subst hvs; rw [hds]; omega
    · rw [hdo v hv hvs]
  · intro v hv hd
    have := honly v hv hd
    subst this
    rw [hds]
    omega
  · rw [List.length_singleton]
    omega
  · intro v hv
    rw [List.mem_singleton] at hv
    subst hv
    rw [hds]
    omega
  · intro v hv hd hq
    exact absurd (honly v hv hd) (by simpa using hq)
  · intro v hv hd hq
    exact absurd (honly v hv hd) (by simpa using hq)
  · intro w hw
    simp at hw

/-- The `while` loop returns within its budget, in a state that satisfies the
invariant: with the target at the head of the queue when `found`, with an empty queue
otherwise. -/
lemma bfs_loop_spec (fuel : Nat) :
    ∀ (parent depth q : List Int) (u0 b : Int) (m : Nat),
      BfsInv G active s t md parent depth q u0 [] b m → m ≤ fuel →
      ∃ (found : Bool) (parent1 depth1 q1 : List Int) (u1 b1 : Int) (m1 : Nat),
        bfs_loop G active t md fuel parent depth q = some (found, parent1, depth1) ∧
        BfsInv G active s t md parent1 depth1 q1 u1 [] b1 m1 ∧
        (found = true → ∃ q2, q1 = t :: q2) ∧ (found = false → q1 = []) := by
  induction fuel with
  | zero =>
    intro parent depth q u0 b m h hm
    cases q with
    | nil => exact ⟨false, parent, depth, [], u0, b, m, by simp [bfs_loop], h, by simp, by simp⟩
    | cons u q =>
      have := h.meas
      rw [List.length_cons] at this
      omega
  | succ fuel ih =>
    intro parent depth q u0 b m h hm
    cases q with
    | nil => exact ⟨false, parent, depth, [], u0, b, m, by simp [bfs_loop], h, by simp, by simp⟩
    | cons u q =>
      by_cases hut : u = t
      · refine ⟨true, parent, depth, u :: q, u0, b, m, by simp [bfs_loop, hut], h, ?_, by simp⟩
        intro _
        exact ⟨q, by rw [hut]⟩
      · have hmeas := h.meas
        rw [List.length_cons] at hmeas
        by_cases hmd : idx depth u 0 ≥ md
        · have h1 := h.pop hut (Or.inl ⟨hmd, rfl⟩)
          obtain ⟨found, p1, d1, q1, u1, b1, m1, hres, hinv, hf⟩ :=
            ih parent depth q u (idx depth u 0) (m - 1) h1 (by omega)
          refine ⟨found, p1, d1, q1, u1, b1, m1, ?_, hinv, hf⟩
          rw [bfs_loop, if_neg hut, if_pos hmd]
          exact hres
        · have h1 := (h.pop hut (Or.inr ⟨by omega, rfl⟩)).scan (idx G u []) parent depth q
          obtain ⟨found, p1, d1, q1, u1, b1, m1, hres, hinv, hf⟩ :=
            ih _ _ _ u (idx depth u 0) (m - 1) h1 (by omega)
          refine ⟨found, p1, d1, q1, u1, b1, m1, ?_, hinv, hf⟩
          rw [bfs_loop, if_neg hut, if_neg hmd]
          exact hres


/-- Following the parent pointers from a discovered vertex of depth `k` reaches the
source after exactly `k` steps; the vertices pushed on the way form, read backwards, a
walk from the source. -/
lemma reconstruct_spec {parent depth q : List Int} {u b : Int} {m : Nat}
    (h : BfsInv G active s t md parent depth q u [] b m) (k : Nat) :
    ∀ (fuel : Nat) (cur : Int) (path : List Int), InR G.length cur →
      idx depth cur 0 = (k : Int) → k ≤ fuel →
      ∃ ch, reconstruct parent s fuel cur path = some (s, path ++ ch) ∧ ch.length = k ∧
        List.Chain' (fun c a => c ∈ idx G a []) (cur :: ch) ∧
        (∀ v ∈ cur :: ch, idx active v false = true) ∧ (cur :: ch).getLast? = some s := by
  induction k with
  | zero =>
    intro fuel cur path hc hd _
    have hdisc : idx depth cur 0 ≠ -1 := by rw [hd]; simp
    obtain ⟨hact, hpar⟩ := h.disc cur hc hdisc
    have hcs : cur = s := by
      rcases hpar with h1 | ⟨h2, h3, h4, _, _⟩
      · exact h1
      · have := h.dnn _ h2
        simp at hd
        omega
    refine ⟨[], ?_, rfl, List.chain'_singleton _, ?_, by simp [hcs]⟩
    · cases fuel <;> simp [reconstruct, hcs]
    · intro v hv
      rw [List.mem_singleton] at hv
      rw [hv]; exact hact
  | succ k ih =>
    intro fuel cur path hc hd hfuel
    have hdisc : idx depth cur 0 ≠ -1 := by rw [hd]; omega
    obtain ⟨hact, hpar⟩ := h.disc cur hc hdisc
    have hcs : cur ≠ s := by
      intro hcs
      rw [hcs, h.ds] at hd
      omega
    rcases hpar with h1 | ⟨h2, h3, h4, h5, _⟩
    · exact absurd h1 hcs
    · obtain ⟨fuel, rfl⟩ : ∃ f, fuel = f + 1 := ⟨fuel - 1, by omega⟩
      have hp : idx parent cur 0 ≠ -1 := by have := h2.1; omega
      obtain ⟨ch, hrec, hlen, hchain, hall, hlast⟩ :=
        ih fuel (idx parent cur 0) (path ++ [idx parent cur 0]) h2
          (by rw [hd] at h4; push_cast at h4; omega) (by omega)
      refine ⟨idx parent cur 0 :: ch, ?_, by simp [hlen], ?_, ?_, ?_⟩
      · rw [reconstruct, if_pos ⟨hcs, hp⟩, hrec]
        simp
      · exact List.Chain'.cons h5 hchain
      · intro v hv
        rcases List.mem_cons.mp hv with hv | hv
        · rw [hv]; exact hact
        · exact hall v hv
      · rw [List.getLast?_cons_cons]; exact hlast

/-- Along a walk that starts at a discovered vertex of depth at most `j` and is shorter
than the bound `B` below every queued depth, every vertex has been discovered, the
`i`-th one with depth at most `j + i`. -/
lemma walk_disc {parent depth q : List Int} {u b : Int} {m : Nat}
    (h : BfsInv G active s t md parent depth q u [] b m) (hA : active.length = G.length)
    (B : Int) (hq : ∀ v ∈ q, B ≤ idx depth v 0) (hB : B ≤ md + 1) (p : List Int) :
    ∀ (v0 : Int) (j : Int), IsWalk G active (v0 :: p) → InR G.length v0 →
      idx depth v0 0 ≠ -1 → idx depth v0 0 ≤ j → j + p.length < B →
      ∀ z, (v0 :: p).getLast? = some z →
        InR G.length z ∧ idx depth z 0 ≠ -1 ∧ idx depth z 0 ≤ j + p.length := by
  induction p with
  | nil =>
    intro v0 j _ hv hd hj _ z hz
    simp at hz
    subst hz
    exact ⟨hv, hd, by simpa using hj⟩
  | cons v1 p ih =>
    intro v0 j hw hv hd hj hlen z hz
    rw [List.length_cons] at hlen
    push_cast at hlen
    have hedge : v1 ∈ idx G v0 [] := (List.chain'_cons.mp hw.1).1
    have hact1 : idx active v1 false = true := hw.2 v1 (by simp)
    have hv1 : InR G.length v1 := hA ▸ inR_of_active hact1
    have hnq : v0 ∉ q := fun hmem => by
      have := hq v0 hmem
      omega
    obtain ⟨_, hproc⟩ := h.proc v0 hv hd hnq
    rcases hproc with hmd | hnb
    · omega
    · rcases hnb v1 hedge hact1 with ⟨_, hmem⟩ | ⟨hd1, hle1⟩
      · simp at hmem
      · have hw1 : IsWalk G active (v1 :: p) :=
          ⟨(List.chain'_cons.mp hw.1).2, fun x hx => hw.2 x (List.mem_cons_of_mem _ hx)⟩
        rw [List.getLast?_cons_cons] at hz
        have := ih v1 (j + 1) hw1 hv1 hd1 (by omega) (by omega) z hz
        rw [List.length_cons]
        push_cast
        exact ⟨this.1, this.2.1, by omega⟩


/-- What `min_cost_routing` pushes for one pair `(s, t)`: the search and the
reconstruction stay within their budgets; a non-empty result is a walk from `s` to `t`
through active vertices, of at most `md + 1` vertices and no longer than any other such
walk; and the result is empty exactly when an endpoint is invalid or no walk of at most
`md` edges exists. -/
lemma route_spec (hG : InRange G G.length) (hA : active.length = G.length) (md s t : Int) :
    ∃ path, route G active md (s, t) = some path ∧
      (path ≠ [] → WalkFromTo G active s t path) ∧
      (path ≠ [] → 0 ≤ md → (path.length : Int) ≤ md + 1) ∧
      (path ≠ [] → ∀ p, WalkFromTo G active s t p → path.length ≤ p.length) ∧
      (0 ≤ md → (path = [] ↔ (¬ InR G.length s ∨ ¬ InR G.length t ∨
          idx active s false = false ∨ idx active t false = false ∨
          ¬ ∃ p, WalkFromTo G active s t p ∧ (p.length : Int) ≤ md + 1))) := by
  by_cases hbad : s < 0 ∨ t < 0 ∨ s.toNat ≥ G.length ∨ t.toNat ≥ G.length ∨
      idx active s false = false ∨ idx active t false = false
  · refine ⟨[], by simp only [route]; rw [if_pos hbad], by simp, by simp, by simp, ?_⟩
    intro _
    refine ⟨fun _ => ?_, fun _ => rfl⟩
    rcases hbad with h | h | h | h | h | h
    · exact Or.inl (fun hs => by have := hs.1; omega)
    · exact Or.inr (Or.inl (fun hs => by have := hs.1; omega))
    · exact Or.inl (fun hs => by have := hs.2; omega)
    · exact Or.inr (Or.inl (fun hs => by have := hs.2; omega))
    · exact Or.inr (Or.inr (Or.inl h))
    · exact Or.inr (Or.inr (Or.inr (Or.inl h)))
  · have hbad1 := hbad
    simp only [not_or, not_lt, ge_iff_le, not_le, Bool.not_eq_false] at hbad1
    obtain ⟨hs0, ht0, hsn, htn, has, hat⟩ := hbad1
    have hs : InR G.length s := ⟨hs0, hsn⟩
    have ht : InR G.length t := ⟨ht0, htn⟩
    obtain ⟨found, p1, d1, q1, u1, b1, m1, hres, hinv, hft, hff⟩ :=
      bfs_loop_spec G.length _ _ _ s 0 G.length
        (@BfsInv.init G active s t md hG hs has) (le_refl _)
    have hsd : idx d1 s 0 ≠ -1 := by rw [hinv.ds]; omega
    cases found with
    | false =>
      have hq1 : q1 = [] := hff rfl
      subst hq1
      have hst : s ≠ t := (hinv.proc s hs hsd (by simp)).1
      refine ⟨[], ?_, by simp, by simp, by simp, ?_⟩
      · simp only [route]
        rw [if_neg hbad, hres]
        simp [hst]
      · intro _
        refine ⟨fun _ => ?_, fun _ => rfl⟩
        right; right; right; right
        rintro ⟨p, ⟨hwalk, hhead, hlast⟩, hlen⟩
        cases p with
        | nil => simp at hhead
        | cons v0 p =>
          simp at hhead
          subst hhead
          rw [List.length_cons] at hlen
          push_cast at hlen
          have := walk_disc hinv hA (md + 1) (by simp) (le_refl _) p v0 0 hwalk hs hsd
            (by rw [hinv.ds]) (by omega) t hlast
          exact (hinv.proc t this.1 this.2.1 (by simp)).1 rfl
    | true =>
      obtain ⟨q2, hq2⟩ := hft rfl
      subst hq2
      obtain ⟨_, htd⟩ := hinv.qin t (List.mem_cons_self _ _)
      have hdnn := hinv.dnn t ht
      have hcnt := hinv.cnt t ht htd
      obtain ⟨k, hk⟩ : ∃ k : Nat, idx d1 t 0 = (k : Int) :=
        ⟨(idx d1 t 0).toNat, by omega⟩
      obtain ⟨ch, hrec, hlen, hchain, hall, hlast⟩ :=
        reconstruct_spec hinv k G.length t [t] ht hk (by omega)
      have hkmd : k ≠ 0 → (k : Int) ≤ md := by
        intro hk0
        rcases (hinv.disc t ht htd).2 with h1 | ⟨h2, h3, h4, _, h6⟩
        · rw [h1, hinv.ds] at hk
          omega
        · omega
      have hwalk : WalkFromTo G active s t (t :: ch).reverse := by
        refine ⟨⟨List.chain'_reverse.mpr hchain, ?_⟩, ?_, ?_⟩
        · intro v hv
          exact hall v (List.mem_reverse.mp hv)
        · rw [List.head?_reverse]; exact hlast
        · rw [List.getLast?_reverse]; rfl
      have hne : (t :: ch).reverse ≠ [] := by simp
      have hlen1 : (t :: ch).reverse.length = k + 1 := by simp [hlen]
      refine ⟨(t :: ch).reverse, ?_, fun _ => hwalk, ?_, ?_, ?_⟩
      · simp only [route]
        rw [if_neg hbad, hres]
        simp [hrec]
      · intro _ hmd
        rw [hlen1]
        push_cast
        by_cases hk0 : k = 0
        · omega
        · have := hkmd hk0
          omega
      · intro _ p ⟨hw, hhead, hlastp⟩
        rw [hlen1]
        cases p with
        | nil => simp at hhead
        | cons v0 p =>
          simp at hhead
          subst hhead
          rw [List.length_cons]
          by_contra hlt
          have hk0 : k ≠ 0 := by omega
          have hsort := List.pairwise_cons.mp hinv.sorted
          have := walk_disc hinv hA (idx d1 t 0)
            (fun v hv => by
              rcases List.mem_cons.mp hv with hv | hv
              · rw [hv]
              · exact hsort.1 v hv)
            (by have := hkmd hk0; omega) p v0 0 hw hs hsd (by rw [hinv.ds])
            (by omega) t hlastp
          omega
      · intro hmd
        refine ⟨fun h => absurd h hne, fun h => ?_⟩
        exfalso
        rcases h with h | h | h | h | h
        · exact h hs
        · exact h ht
        · rw [has] at h; cases h
        · rw [hat] at h; cases h
        · apply h
          refine ⟨_, hwalk, ?_⟩
          rw [hlen1]
          push_cast
          by_cases hk0 : k = 0
          · omega
          · have := hkmd hk0
            omega

end DynamicGraph

/-! ## Frame properties of the mutations -/

namespace DynamicGraph

lemma WF.lenInv {g : DynamicGraph} (h : WF g) : LenInv g := ⟨h.1, h.2.1⟩

lemma resize_of_le {α : Type} (l : List α) (n : Nat) (d : α) (h : l.length ≤ n) :
    resize l n d = l ++ List.replicate (n - l.length) d := by
  unfold resize
  rw [List.take_of_length_le h]

lemma length_resize {α : Type} (l : List α) (n : Nat) (d : α) (h : l.length ≤ n) :
    (resize l n d).length = n := by
  rw [resize_of_le l n d h, List.length_append, List.length_replicate]
  omega

/-- No mutation writes into the snapshot: the only change is that `add_vertex` appends
empty lists when it grows the vectors.  The three lengths stay equal. -/
lemma apply_frame {g g1 : DynamicGraph} (h : LenInv g) (m : Mutation)
    (hm : m.apply g = some g1) :
    LenInv g1 ∧ ∃ k, g1.snapshot_adj_ = g.snapshot_adj_ ++ List.replicate k [] ∧
      g1.adj_.length = g.adj_.length + k := by
  obtain ⟨ha, hs⟩ := h
  cases m with
  | add_vertex v =>
    simp only [Mutation.apply, Option.some.injEq] at hm
    subst hm
    unfold add_vertex
    by_cases hv : v < 0
    · rw [if_pos hv]
      exact ⟨⟨ha, hs⟩, 0, by simp, by simp⟩
    · rw [if_neg hv]
      by_cases hid : v.toNat ≥ g.adj_.length
      · simp only [if_pos hid]
        refine ⟨⟨?_, ?_⟩, v.toNat + 1 - g.adj_.length, ?_, ?_⟩
        · rw [List.length_set, length_resize _ _ _ (by omega), length_resize _ _ _ (by omega)]
        · rw [length_resize _ _ _ (by omega), length_resize _ _ _ (by omega)]
        · show resize g.snapshot_adj_ (v.toNat + 1) [] = _
          rw [resize_of_le _ _ _ (by omega), hs]
        · show (resize g.adj_ (v.toNat + 1) []).length = _
          rw [length_resize _ _ _ (by omega)]
          omega
      · simp only [if_neg hid]
        exact ⟨⟨by rw [List.length_set]; exact ha, hs⟩, 0, by simp, by simp⟩
  | remove_vertex v =>
    simp only [Mutation.apply, remove_vertex] at hm
    split at hm
    · simp only [Option.some.injEq] at hm
      subst hm
      exact ⟨⟨by rw [List.length_set]; exact ha, hs⟩, 0, by simp, by simp⟩
    · cases hm
  | add_edge u v =>
    simp only [Mutation.apply, add_edge] at hm
    split at hm
    · split at hm
      · simp only [Option.some.injEq] at hm
        subst hm
        exact ⟨⟨ha, hs⟩, 0, by simp, by simp⟩
      · simp only [Option.some.injEq] at hm
        subst hm
        exact ⟨⟨by simpa using ha, by simpa using hs⟩, 0, by simp, by simp⟩
    · cases hm
  | remove_edge u v =>
    simp only [Mutation.apply, remove_edge] at hm
    split at hm
    · simp only [Option.some.injEq] at hm
      subst hm
      exact ⟨⟨by simpa using ha, by simpa using hs⟩, 0, by simp, by simp⟩
    · cases hm

/-- The frame property of `apply_frame` along a sequence of mutations. -/
lemma run_frame (ms : List Mutation) :
    ∀ {g g1 : DynamicGraph}, LenInv g → run g ms = some g1 →
      LenInv g1 ∧ ∃ k, g1.snapshot_adj_ = g.snapshot_adj_ ++ List.replicate k [] ∧
        g1.adj_.length = g.adj_.length + k := by
  induction ms with
  | nil =>
    intro g g1 h hr
    simp only [run, Option.some.injEq] at hr
    subst hr
    exact ⟨h, 0, by simp, by simp⟩
  | cons m ms ih =>
    intro g g1 h hr
    simp only [run] at hr
    cases hm : m.apply g with
    | none => rw [hm] at hr; cases hr
    | some g2 =>
      rw [hm] at hr
      simp only [Option.some_bind] at hr
      obtain ⟨h2, k2, hs2, hl2⟩ := apply_frame h m hm
      obtain ⟨h1, k1, hs1, hl1⟩ := ih h2 hr
      refine ⟨h1, k2 + k1, ?_, by omega⟩
      rw [hs1, hs2, List.append_assoc, List.append_replicate_replicate]

lemma snapshot_lenInv {g : DynamicGraph} (h : LenInv g) : LenInv g.snapshot :=
  ⟨h.1, by simp [snapshot]⟩

/-- The entry of the snapshot at an in-range handle. -/
lemma idx_snapshot (g : DynamicGraph) {v : Int} (hv : InR g.adj_.length v) :
    idx g.snapshot.snapshot_adj_ v [] =
      if idx g.active_ v false = true then idx g.adj_ v [] else [] := by
  rw [idx_nonneg _ _ hv.1, idx_nonneg _ _ hv.1, idx_nonneg _ _ hv.1]
  simp only [snapshot, List.getD_eq_getElem?_getD, List.getElem?_map,
    List.getElem?_range hv.2, Option.map_some', Option.getD_some]
  split <;> simp_all

lemma idx_append_left {α : Type} (l r : List α) (d : α) {v : Int} (hv : InR l.length v) :
    idx (l ++ r) v d = idx l v d := by
  rw [idx_nonneg _ _ hv.1, idx_nonneg _ _ hv.1, List.getD_eq_getElem?_getD,
    List.getD_eq_getElem?_getD, List.getElem?_append_left hv.2]

end DynamicGraph

/-! ## The example states are reachable -/

namespace DynamicGraph

lemma path5_live_built :
    run (new 5) [.add_edge 0 1, .add_edge 1 2, .add_edge 2 3, .add_edge 3 4]
      = some path5_live := by decide

lemma cycle5_live_built :
    run (new 5) [.add_edge 0 1, .add_edge 1 2, .add_edge 2 3, .add_edge 3 4, .add_edge 4 0]
      = some cycle5_live := by decide

lemma edge_removed_live_built :
    run (new 2) [.add_edge 0 1, .remove_vertex 1] = some edge_removed_live := by decide

/-- The queries read the engine only through the view and the active flags. -/
lemma k_cores_congr {g1 g2 : DynamicGraph} (hv : g1.view = g2.view)
    (ha : g1.active_ = g2.active_) : g1.k_cores = g2.k_cores := by
  simp only [k_cores, hv, ha]

lemma min_cost_routing_congr {g1 g2 : DynamicGraph} (hv : g1.view = g2.view)
    (ha : g1.active_ = g2.active_) (pairs : List (Int × Int)) (md : Int) :
    g1.min_cost_routing pairs md = g2.min_cost_routing pairs md := by
  simp only [min_cost_routing, hv, ha]

/-- After `snapshot()`, mutations that leave the active flags as they were leave the
view as it was. -/
lemma view_frozen {g g1 : DynamicGraph} (hg : LenInv g) (ms : List Mutation)
    (hrun : run g.snapshot ms = some g1) (hact : g1.active_ = g.active_) :
    g1.view = g.snapshot.view := by
  obtain ⟨⟨h1a, h1s⟩, k, hs, hl⟩ := run_frame ms (snapshot_lenInv hg) hrun
  have hk : k = 0 := by
    have h2 : g.snapshot.adj_.length = g.adj_.length := rfl
    have h3 := hg.1
    rw [hact] at h1a
    omega
  subst hk
  simp only [List.replicate_zero, List.append_nil] at hs
  have hsl : g.snapshot.snapshot_adj_.length = g.adj_.length := (snapshot_lenInv hg).2
  unfold view
  rw [hs]
  by_cases he : g.snapshot.snapshot_adj_.isEmpty = true
  · rw [if_pos he, if_pos he]
    have h0 : g.adj_.length = 0 := by
      rw [← hsl]
      simpa using he
    have h2 : g.snapshot.adj_ = g.adj_ := rfl
    rw [h2, List.length_eq_zero.mp h0]
    apply List.length_eq_zero.mp
    rw [hl, Nat.add_zero]
    exact h0
  · rw [if_neg he, if_neg he]

end DynamicGraph

/-! ## The batch of pairs -/

namespace DynamicGraph

lemma forall₂_getElem? {α β : Type} {R : α → β → Prop} {l1 : List α} {l2 : List β}
    (h : List.Forall₂ R l1 l2) :
    ∀ (i : Nat) (a : α) (b : β), l1[i]? = some a → l2[i]? = some b → R a b := by
  induction h with
  | nil => intro i a b h1 _; simp at h1
  | cons hr _ ih =>
    intro i a b h1 h2
    cases i with
    | zero =>
      simp at h1 h2
      subst h1; subst h2
      exact hr
    | succ i =>
      simp at h1 h2
      exact ih i a b h1 h2

/-- The per-pair results are collected in input order, one for each pair. -/
lemma route_all_spec {G : List (List Int)} {active : List Bool} {md : Int}
    {P : Int × Int → List Int → Prop}
    (h : ∀ p, ∃ path, route G active md p = some path ∧ P p path) :
    ∀ pairs, ∃ paths, route_all G active md pairs = some paths ∧
      List.Forall₂ P pairs paths := by
  intro pairs
  induction pairs with
  | nil => exact ⟨[], rfl, List.Forall₂.nil⟩
  | cons p ps ih =>
    obtain ⟨path, h1, h2⟩ := h p
    obtain ⟨paths, h3, h4⟩ := ih
    exact ⟨path :: paths, by simp [route_all, h1, h3], List.Forall₂.cons h2 h4⟩

lemma WF.view_length {g : DynamicGraph} (h : WF g) : g.view.length = g.adj_.length := by
  unfold view
  split
  · rfl
  · exact h.2.1

lemma WF.view_inRange {g : DynamicGraph} (h : WF g) : InRange g.view g.view.length := by
  rw [h.view_length]
  unfold view
  split
  · exact h.2.2.1
  · exact h.2.2.2

/-- On a well-formed engine `min_cost_routing` returns one path for each pair, in input
order, each as described by `RouteSpec`. -/
lemma min_cost_routing_spec {g : DynamicGraph} (hg : WF g) (pairs : List (Int × Int))
    (md : Int) :
    ∃ paths, g.min_cost_routing pairs md = some paths ∧
      List.Forall₂ (RouteSpec g.view g.active_ md) pairs paths := by
  unfold min_cost_routing
  apply route_all_spec
  intro p
  exact route_spec hg.view_inRange (by rw [hg.view_length]; exact hg.1) md p.1 p.2

end DynamicGraph

/-! ## Every reachable state is well formed -/

namespace DynamicGraph

lemma inRange_mono {G : List (List Int)} {n m : Nat} (h : InRange G n) (hnm : n ≤ m) :
    InRange G m := by
  intro l hl x hx
  have := h l hl x hx
  exact ⟨this.1, by omega⟩

lemma inRange_append_replicate {G : List (List Int)} {n : Nat} (h : InRange G n) (k : Nat) :
    InRange (G ++ List.replicate k []) n := by
  intro l hl x hx
  rcases List.mem_append.mp hl with hl | hl
  · exact h l hl x hx
  · rw [List.eq_of_mem_replicate hl] at hx
    simp at hx

lemma inRange_set {G : List (List Int)} {n : Nat} (h : InRange G n) (i : Nat)
    (l : List Int) (hl : ∀ x ∈ l, 0 ≤ x ∧ x.toNat < n) : InRange (G.set i l) n := by
  intro l1 hl1 x hx
  rcases List.mem_or_eq_of_mem_set hl1 with h1 | h1
  · exact h l1 h1 x hx
  · rw [h1] at hx
    exact hl x hx

lemma inRange_idx {G : List (List Int)} {n : Nat} (h : InRange G n) (u : Int) :
    ∀ x ∈ idx G u [], 0 ≤ x ∧ x.toNat < n :=
  fun _ hx => inR_of_mem_idx h hx

lemma check_vertex_iff (v : Int) (n : Nat) : check_vertex v n = true ↔ InR n v := by
  simp [check_vertex, InR]

lemma WF_new (n : Nat) : WF (DynamicGraph.new n) := by
  refine ⟨by simp [DynamicGraph.new], by simp [DynamicGraph.new], ?_, ?_⟩ <;>
  · intro l hl x hx
    rw [List.eq_of_mem_replicate hl] at hx
    simp at hx

lemma WF_snapshot {g : DynamicGraph} (h : WF g) : WF g.snapshot := by
  refine ⟨h.1, (snapshot_lenInv h.lenInv).2, h.2.2.1, ?_⟩
  intro l hl x hx
  simp only [snapshot, List.mem_map, List.mem_range] at hl
  obtain ⟨v, _, hv⟩ := hl
  split at hv
  · rw [← hv] at hx; simp at hx
  · rw [← hv, List.getD_eq_getElem?_getD] at hx
    cases hq : g.adj_[v]? with
    | none => rw [hq] at hx; simp at hx
    | some l1 =>
      rw [hq] at hx
      exact h.2.2.1 l1 (List.mem_iff_getElem?.mpr ⟨_, hq⟩) x hx

lemma WF_apply {g g1 : DynamicGraph} (h : WF g) (m : Mutation) (hm : m.apply g = some g1) :
    WF g1 := by
  obtain ⟨hlen, k, hs, hl⟩ := apply_frame h.lenInv m hm
  refine ⟨hlen.1, hlen.2, ?_, ?_⟩
  swap
  · rw [hs]
    exact inRange_append_replicate (inRange_mono h.2.2.2 (by omega)) k
  obtain ⟨ha, hsn, hG, hS⟩ := h
  cases m with
  | add_vertex v =>
    simp only [Mutation.apply, Option.some.injEq] at hm
    subst hm
    unfold add_vertex at hl ⊢
    by_cases hv : v < 0
    · rw [if_pos hv]; exact hG
    · rw [if_neg hv] at hl ⊢
      by_cases hid : v.toNat ≥ g.adj_.length
      · simp only [if_pos hid] at hl ⊢
        rw [resize_of_le _ _ _ (by omega)] at hl ⊢
        exact inRange_append_replicate (inRange_mono hG (by omega)) _
      · simp only [if_neg hid]
        exact hG
  | remove_vertex v =>
    simp only [Mutation.apply, remove_vertex] at hm
    split at hm
    · simp only [Option.some.injEq] at hm
      subst hm
      exact hG
    · cases hm
  | add_edge u v =>
    simp only [Mutation.apply, add_edge] at hm
    split at hm
    · rename_i hc
      rw [Bool.and_eq_true, check_vertex_iff, check_vertex_iff] at hc
      split at hm
      · simp only [Option.some.injEq] at hm
        subst hm
        exact hG
      · simp only [Option.some.injEq] at hm
        subst hm
        simp only [List.length_set]
        have hpush : ∀ (l : List Int) (y : Int),
            (∀ x ∈ l, 0 ≤ x ∧ x.toNat < g.adj_.length) → InR g.adj_.length y →
            ∀ x ∈ push_unique l y, 0 ≤ x ∧ x.toNat < g.adj_.length := by
          intro l y hl hy x hx
          unfold push_unique at hx
          split at hx
          · exact hl x hx
          · rcases List.mem_append.mp hx with hx | hx
            · exact hl x hx
            · rw [List.mem_singleton] at hx
              rw [hx]; exact hy
        have h1 := inRange_set hG u.toNat _ (hpush _ v (inRange_idx hG u) hc.2)
        exact inRange_set h1 v.toNat _ (hpush _ u (inRange_idx h1 v) hc.1)
    · cases hm
  | remove_edge u v =>
    simp only [Mutation.apply, remove_edge] at hm
    split at hm
    · simp only [Option.some.injEq] at hm
      subst hm
      simp only [List.length_set]
      have h1 := inRange_set hG u.toNat ((idx g.adj_ u []).filter (fun x => decide (x ≠ v)))
        (fun x hx => inRange_idx hG u x (List.mem_of_mem_filter hx))
      exact inRange_set h1 v.toNat _ (fun x hx => inRange_idx h1 v x (List.mem_of_mem_filter hx))
    · cases hm

/-- Every state the public interface can produce is well formed. -/
lemma Reachable.wf {g : DynamicGraph} (h : Reachable g) : WF g := by
  induction h with
  | new n => exact WF_new n
  | mutate m _ hm ih => exact WF_apply ih m hm
  | snapshot _ ih => exact WF_snapshot ih

end DynamicGraph

/-! ## The peeling loop of `k_cores` returns -/

namespace DynamicGraph

lemma length_pq_emplace (x : Int × Int) (l : List (Int × Int)) :
    (pq_emplace x l).length = l.length + 1 := by
  induction l with
  | nil => rfl
  | cons y ys ih =>
    unfold pq_emplace
    split
    · rfl
    · rw [List.length_cons, ih, List.length_cons]

lemma degSum_set (l : List Int) (i : Nat) (x : Int) (hi : i < l.length) :
    degSum (l.set i x) + (l.getD i 0).toNat = degSum l + x.toNat := by
  induction l generalizing i with
  | nil => simp at hi
  | cons a l ih =>
    cases i with
    | zero =>
      simp [degSum]
      omega
    | succ i =>
      have := ih i (by simpa using hi)
      simp [degSum] at this ⊢
      omega

/-- A visit of the peeling loop pushes an entry only when it lowers a positive tracked
degree, so it never raises the number of entries plus the sum of the tracked degrees. -/
lemma peel_visit_measure (active removed : List Bool) (st : List Int × List (Int × Int))
    (u : Int) :
    (peel_visit active removed st u).2.length + degSum (peel_visit active removed st u).1
      ≤ st.2.length + degSum st.1 := by
  unfold peel_visit
  split
  · exact le_refl _
  · split
    · rename_i hpos
      have hu : 0 ≤ u := by
        by_contra hneg
        unfold idx at hpos
        rw [if_pos (by omega)] at hpos
        omega
      rw [idx_nonneg _ _ hu] at hpos ⊢
      have hlt : u.toNat < st.1.length := by
        by_contra hge
        rw [List.getD_eq_getElem?_getD, List.getElem?_eq_none (by omega)] at hpos
        simp at hpos
      have := degSum_set st.1 u.toNat (st.1.getD u.toNat 0 - 1) hlt
      simp only [length_pq_emplace]
      omega
    · exact le_refl _

lemma peel_scan_measure (active removed : List Bool) (l : List Int) :
    ∀ st : List Int × List (Int × Int),
      (l.foldl (peel_visit active removed) st).2.length
          + degSum (l.foldl (peel_visit active removed) st).1
        ≤ st.2.length + degSum st.1 := by
  induction l with
  | nil => intro st; exact le_refl _
  | cons u l ih =>
    intro st
    rw [List.foldl_cons]
    exact le_trans (ih _) (peel_visit_measure active removed st u)

/-- The peeling loop returns when it is granted as many iterations as there are queue
entries plus the sum of the tracked degrees. -/
lemma peel_loop_total (G : List (List Int)) (active : List Bool) (fuel : Nat) :
    ∀ (pq : List (Int × Int)) (degree : List Int) (removed : List Bool) (core : List Int),
      pq.length + degSum degree ≤ fuel →
      ∃ res, peel_loop G active fuel pq degree removed core = some res ∧
        res.length = core.length := by
  induction fuel with
  | zero =>
    intro pq degree removed core h
    cases pq with
    | nil => exact ⟨core, by simp [peel_loop], rfl⟩
    | cons x pq => simp at h
  | succ fuel ih =>
    intro pq degree removed core h
    cases pq with
    | nil => exact ⟨core, by simp [peel_loop], rfl⟩
    | cons x pq =>
      obtain ⟨deg_v, v⟩ := x
      rw [List.length_cons] at h
      unfold peel_loop
      split
      · exact ih pq degree removed core (by omega)
      · have := peel_scan_measure active (removed.set v.toNat true) (idx G v []) (degree, pq)
        obtain ⟨res, h1, h2⟩ := ih _ _ (removed.set v.toNat true) (core.set v.toNat deg_v)
          (le_trans this (by simp only; omega))
        exact ⟨res, h1, by rw [h2, List.length_set]⟩

lemma seed_length (active : List Bool) (degree : List Int) (l : List Nat) :
    ∀ pq : List (Int × Int),
      (l.foldl (fun pq v => if active.getD v false = true
          then pq_emplace (degree.getD v 0, (v : Int)) pq else pq) pq).length
        ≤ pq.length + l.length := by
  induction l with
  | nil => intro pq; simp
  | cons v l ih =>
    intro pq
    rw [List.foldl_cons, List.length_cons]
    refine le_trans (ih _) ?_
    split
    · rw [length_pq_emplace]; omega
    · omega

lemma count_active_bounds (active : List Bool) (l : List Int) :
    ∀ d : Int, d ≤ l.foldl (fun d u => if idx active u false = true then d + 1 else d) d ∧
      l.foldl (fun d u => if idx active u false = true then d + 1 else d) d ≤ d + l.length := by
  induction l with
  | nil => intro d; simp
  | cons u l ih =>
    intro d
    rw [List.foldl_cons, List.length_cons]
    push_cast
    split
    · have := ih (d + 1)
      omega
    · have := ih d
      omega

lemma init_degree_le (G : List (List Int)) (active : List Bool) (v : Nat) :
    (init_degree G active v).toNat ≤ (G.getD v []).length := by
  unfold init_degree
  split
  · simp
  · have := (count_active_bounds active (G.getD v []) 0).2
    omega

lemma map_range_getD_length (G : List (List Int)) :
    (List.range G.length).map (fun v => (G.getD v []).length) = G.map List.length := by
  apply List.ext_getElem?
  intro i
  by_cases hi : i < G.length
  · simp [List.getElem?_map, List.getElem?_range hi, List.getElem?_eq_getElem hi]
  · rw [List.getElem?_eq_none (by simpa using hi), List.getElem?_eq_none (by simpa using hi)]

/-- `k_cores()` returns on every engine state, with one entry for each vertex of the
view. -/
lemma k_cores_total (g : DynamicGraph) :
    ∃ core, g.k_cores = some core ∧ core.length = g.view.length := by
  unfold k_cores
  simp only
  have h1 := seed_length g.active_
    ((List.range g.view.length).map (init_degree g.view g.active_)) (List.range g.view.length) []
  have h2 : degSum ((List.range g.view.length).map (init_degree g.view g.active_))
      ≤ (g.view.map List.length).sum := by
    rw [← map_range_getD_length]
    unfold degSum
    rw [List.map_map]
    exact List.sum_le_sum (fun v _ => init_degree_le g.view g.active_ v)
  rw [List.length_range, List.length_nil, Nat.zero_add] at h1
  obtain ⟨res, h3, h4⟩ := peel_loop_total g.view g.active_
    (g.view.length + (g.view.map List.length).sum) _ _
    (List.replicate g.view.length false) (List.replicate g.view.length 0)
    (Nat.add_le_add h1 h2)
  exact ⟨res, h3, by rw [h4, List.length_replicate]⟩


lemma run_wf (ms : List Mutation) :
    ∀ {g g1 : DynamicGraph}, WF g → run g ms = some g1 → WF g1 := by
  induction ms with
  | nil =>
    intro g g1 h hr
    simp only [run, Option.some.injEq] at hr
    exact hr ▸ h
  | cons m ms ih =>
    intro g g1 h hr
    simp only [run] at hr
    cases hm : m.apply g with
    | none => rw [hm] at hr; cases hr
    | some g2 =>
      rw [hm] at hr
      exact ih (WF_apply h m hm) hr

/-- Edge edits leave the active flags alone. -/
lemma run_edge_edits_active (ms : List Mutation) :
    ∀ {g g1 : DynamicGraph}, (∀ m ∈ ms, m.isEdgeEdit = true) → run g ms = some g1 →
      g1.active_ = g.active_ := by
  induction ms with
  | nil =>
    intro g g1 _ hr
    simp only [run, Option.some.injEq] at hr
    rw [← hr]
  | cons m ms ih =>
    intro g g1 hall hr
    simp only [run] at hr
    cases hm : m.apply g with
    | none => rw [hm] at hr; cases hr
    | some g2 =>
      rw [hm] at hr
      have h2 := ih (fun m1 h1 => hall m1 (List.mem_cons_of_mem _ h1)) hr
      rw [h2]
      have hedge := hall m (List.mem_cons_self _ _)
      cases m with
      | add_vertex v => cases hedge
      | remove_vertex v => cases hedge
      | add_edge u v =>
        simp only [Mutation.apply, add_edge] at hm
        split at hm
        · split at hm <;>
          · simp only [Option.some.injEq] at hm
            rw [← hm]
        · cases hm
      | remove_edge u v =>
        simp only [Mutation.apply, remove_edge] at hm
        split at hm
        · simp only [Option.some.injEq] at hm
          rw [← hm]
        · cases hm

end DynamicGraph

/-! ## The edge edits -/

namespace DynamicGraph

lemma add_edge_eq (g : DynamicGraph) (u v : Int) :
    g.add_edge u v =
      if check_vertex u g.adj_.length && check_vertex v g.adj_.length then
        if idx g.active_ u false = false ∨ idx g.active_ v false = false then some g
        else some { g with adj_ := adj_add g.adj_ u v }
      else none := rfl

lemma remove_edge_eq (g : DynamicGraph) (u v : Int) :
    g.remove_edge u v =
      if check_vertex u g.adj_.length && check_vertex v g.adj_.length then
        some { g with adj_ := adj_remove g.adj_ u v }
      else none := rfl

lemma check_both_iff (u v : Int) (n : Nat) :
    (check_vertex u n && check_vertex v n) = true ↔ InR n u ∧ InR n v := by
  rw [Bool.and_eq_true, check_vertex_iff, check_vertex_iff]

lemma mem_push_unique (l : List Int) (x y : Int) : y ∈ push_unique l x ↔ y ∈ l ∨ y = x := by
  unfold push_unique
  split
  · constructor
    · exact Or.inl
    · rintro (h | h)
      · exact h
      · rw [h]; assumption
  · simp

lemma push_unique_of_mem {l : List Int} {x : Int} (h : x ∈ l) : push_unique l x = l := by
  unfold push_unique
  rw [if_pos h]

lemma nodup_push_unique {l : List Int} (h : l.Nodup) (x : Int) : (push_unique l x).Nodup := by
  unfold push_unique
  split
  · exact h
  · rename_i hx
    rw [List.nodup_append]
    refine ⟨h, List.nodup_singleton _, ?_⟩
    intro a ha hb
    rw [List.mem_singleton] at hb
    exact hx (hb ▸ ha)

lemma prefix_push_unique (l : List Int) (x : Int) : l <+: push_unique l x := by
  unfold push_unique
  split
  · exact List.prefix_refl _
  · exact List.prefix_append _ _

lemma length_adj_add (adj : List (List Int)) (u v : Int) :
    (adj_add adj u v).length = adj.length := by
  simp [adj_add]

lemma length_adj_remove (adj : List (List Int)) (u v : Int) :
    (adj_remove adj u v).length = adj.length := by
  simp [adj_remove]

/-- The lists of `u` and `v` after `add_edge(u, v)`, and the frame. -/
lemma idx_adj_add {adj : List (List Int)} {u v : Int} (hu : InR adj.length u)
    (hv : InR adj.length v) (a : Int) :
    idx (adj_add adj u v) a [] =
      if a = v then push_unique (if v = u then push_unique (idx adj u []) v else idx adj v []) u
      else if a = u then push_unique (idx adj u []) v
      else idx adj a [] := by
  have hv1 : InR (adj.set u.toNat (push_unique (idx adj u []) v)).length v := by
    rw [List.length_set]; exact hv
  have h1 : ∀ b, idx (adj.set u.toNat (push_unique (idx adj u []) v)) b [] =
      if b = u then push_unique (idx adj u []) v else idx adj b [] := by
    intro b
    by_cases hb : b = u
    · rw [if_pos hb, hb, idx_set_self _ _ hu]
    · rw [if_neg hb, idx_set_ne _ _ _ hu.1 hb]
  unfold adj_add
  by_cases hav : a = v
  · rw [if_pos hav, hav, idx_set_self _ _ hv1, h1]
  · rw [if_neg hav, idx_set_ne _ _ _ hv.1 hav, h1]

lemma mem_idx_adj_add {adj : List (List Int)} {u v : Int} (hu : InR adj.length u)
    (hv : InR adj.length v) (a x : Int) :
    x ∈ idx (adj_add adj u v) a [] ↔
      x ∈ idx adj a [] ∨ (a = u ∧ x = v) ∨ (a = v ∧ x = u) := by
  rw [idx_adj_add hu hv]
  by_cases hav : a = v
  · rw [if_pos hav, mem_push_unique]
    by_cases hvu : v = u
    · rw [if_pos hvu, mem_push_unique]
      subst hav; subst hvu
      tauto
    · rw [if_neg hvu]
      subst hav
      tauto
  · rw [if_neg hav]
    by_cases hau : a = u
    · rw [if_pos hau, mem_push_unique]
      subst hau
      tauto
    · rw [if_neg hau]
      tauto

/-- The lists of `u` and `v` after `remove_edge(u, v)`, and the frame. -/
lemma idx_adj_remove {adj : List (List Int)} {u v : Int} (hu : InR adj.length u)
    (hv : InR adj.length v) (a : Int) :
    idx (adj_remove adj u v) a [] =
      if a = v then
        (if v = u then (idx adj u []).filter (fun x => decide (x ≠ v))
          else idx adj v []).filter (fun x => decide (x ≠ u))
      else if a = u then (idx adj u []).filter (fun x => decide (x ≠ v))
      else idx adj a [] := by
  have hv1 : InR (adj.set u.toNat ((idx adj u []).filter (fun x => decide (x ≠ v)))).length v := by
    rw [List.length_set]; exact hv
  have h1 : ∀ b, idx (adj.set u.toNat ((idx adj u []).filter (fun x => decide (x ≠ v)))) b [] =
      if b = u then (idx adj u []).filter (fun x => decide (x ≠ v)) else idx adj b [] := by
    intro b
    by_cases hb : b = u
    · rw [if_pos hb, hb, idx_set_self _ _ hu]
    · rw [if_neg hb, idx_set_ne _ _ _ hu.1 hb]
  unfold adj_remove
  by_cases hav : a = v
  · rw [if_pos hav, hav, idx_set_self _ _ hv1, h1]
  · rw [if_neg hav, idx_set_ne _ _ _ hv.1 hav, h1]

lemma mem_idx_adj_remove {adj : List (List Int)} {u v : Int} (hu : InR adj.length u)
    (hv : InR adj.length v) (a x : Int) :
    x ∈ idx (adj_remove adj u v) a [] ↔
      x ∈ idx adj a [] ∧ ¬ (a = u ∧ x = v) ∧ ¬ (a = v ∧ x = u) := by
  rw [idx_adj_remove hu hv]
  by_cases hav : a = v
  · rw [if_pos hav]
    by_cases hvu : v = u
    · rw [if_pos hvu]
      subst hav; subst hvu
      simp only [List.mem_filter, decide_eq_true_eq]
      tauto
    · rw [if_neg hvu]
      subst hav
      simp only [List.mem_filter, decide_eq_true_eq]
      tauto
  · rw [if_neg hav]
    by_cases hau : a = u
    · rw [if_pos hau]
      subst hau
      simp only [List.mem_filter, decide_eq_true_eq]
      tauto
    · rw [if_neg hau]
      tauto

end DynamicGraph

/-! ## Symmetry and absence of multi-edges in the reachable states -/

namespace DynamicGraph

lemma idx_replicate_nil (n : Nat) (u : Int) : idx (List.replicate n ([] : List Int)) u [] = [] := by
  unfold idx
  split
  · rfl
  · rw [List.getD_eq_getElem?_getD, List.getElem?_replicate]
    split <;> rfl

lemma idx_append_replicate_nil (adj : List (List Int)) (k : Nat) (u : Int) :
    idx (adj ++ List.replicate k []) u [] = idx adj u [] := by
  unfold idx
  split
  · rfl
  · rw [List.getD_eq_getElem?_getD, List.getD_eq_getElem?_getD]
    by_cases h : u.toNat < adj.length
    · rw [List.getElem?_append_left h]
    · rw [List.getElem?_append_right (by omega), List.getElem?_replicate,
        List.getElem?_eq_none (by omega)]
      split <;> rfl

/-- The live lists after `add_vertex(v)`: the old ones, followed by empty ones. -/
lemma add_vertex_adj (g : DynamicGraph) (v : Int) :
    ∃ k, (g.add_vertex v).adj_ = g.adj_ ++ List.replicate k [] ∧
      (0 < k → g.adj_.length ≤ v.toNat ∧ g.adj_.length + k = v.toNat + 1 ∧ 0 ≤ v) := by
  unfold add_vertex
  by_cases hv : v < 0
  · rw [if_pos hv]
    exact ⟨0, by simp, by simp⟩
  · rw [if_neg hv]
    by_cases hid : v.toNat ≥ g.adj_.length
    · simp only [if_pos hid]
      refine ⟨v.toNat + 1 - g.adj_.length, resize_of_le _ _ _ (by omega), fun _ => ?_⟩
      omega
    · simp only [if_neg hid]
      exact ⟨0, by simp, by simp⟩

lemma Symmetric_apply {g g1 : DynamicGraph} (h : Symmetric g) (m : Mutation)
    (hm : m.apply g = some g1) : Symmetric g1 := by
  cases m with
  | add_vertex v =>
    simp only [Mutation.apply, Option.some.injEq] at hm
    subst hm
    obtain ⟨k, hk, _⟩ := add_vertex_adj g v
    intro a x
    rw [hk, idx_append_replicate_nil, idx_append_replicate_nil]
    exact h a x
  | remove_vertex v =>
    simp only [Mutation.apply, remove_vertex] at hm
    split at hm
    · simp only [Option.some.injEq] at hm
      subst hm
      exact h
    · cases hm
  | add_edge u v =>
    simp only [Mutation.apply] at hm
    rw [add_edge_eq] at hm
    split at hm
    · rename_i hc
      rw [check_both_iff] at hc
      split at hm
      · simp only [Option.some.injEq] at hm
        subst hm
        exact h
      · simp only [Option.some.injEq] at hm
        subst hm
        intro a x
        show x ∈ idx (adj_add g.adj_ u v) a [] ↔ a ∈ idx (adj_add g.adj_ u v) x []
        rw [mem_idx_adj_add hc.1 hc.2, mem_idx_adj_add hc.1 hc.2]
        have := h a x
        tauto
    · cases hm
  | remove_edge u v =>
    simp only [Mutation.apply] at hm
    rw [remove_edge_eq] at hm
    split at hm
    · rename_i hc
      rw [check_both_iff] at hc
      simp only [Option.some.injEq] at hm
      subst hm
      intro a x
      show x ∈ idx (adj_remove g.adj_ u v) a [] ↔ a ∈ idx (adj_remove g.adj_ u v) x []
      rw [mem_idx_adj_remove hc.1 hc.2, mem_idx_adj_remove hc.1 hc.2]
      have := h a x
      tauto
    · cases hm

/-- Every state the public interface can produce has a symmetric live graph. -/
lemma Reachable.symmetric {g : DynamicGraph} (h : Reachable g) : Symmetric g := by
  induction h with
  | new n =>
    intro a x
    show x ∈ idx (List.replicate n []) a [] ↔ a ∈ idx (List.replicate n []) x []
    rw [idx_replicate_nil, idx_replicate_nil]
    simp
  | mutate m _ hm ih => exact Symmetric_apply ih m hm
  | snapshot _ ih => exact ih

lemma nodup_idx {G : List (List Int)} (h : ∀ l ∈ G, l.Nodup) (u : Int) :
    (idx G u []).Nodup := by
  unfold idx
  split
  · exact List.nodup_nil
  · rw [List.getD_eq_getElem?_getD]
    cases hq : G[u.toNat]? with
    | none => exact List.nodup_nil
    | some l => exact h l (List.mem_iff_getElem?.mpr ⟨_, hq⟩)

lemma nodup_set {G : List (List Int)} (h : ∀ l ∈ G, l.Nodup) (i : Nat) {x : List Int}
    (hx : x.Nodup) : ∀ l ∈ G.set i x, l.Nodup := by
  intro l hl
  rcases List.mem_or_eq_of_mem_set hl with h1 | h1
  · exact h l h1
  · rw [h1]; exact hx

lemma nodup_append_replicate {G : List (List Int)} (h : ∀ l ∈ G, l.Nodup) (k : Nat) :
    ∀ l ∈ G ++ List.replicate k [], l.Nodup := by
  intro l hl
  rcases List.mem_append.mp hl with hl | hl
  · exact h l hl
  · rw [List.eq_of_mem_replicate hl]
    exact List.nodup_nil

lemma NoMultiEdge_apply {g g1 : DynamicGraph} (hlen : LenInv g) (h : NoMultiEdge g)
    (m : Mutation) (hm : m.apply g = some g1) : NoMultiEdge g1 := by
  obtain ⟨_, k, hs, _⟩ := apply_frame hlen m hm
  refine ⟨?_, by rw [hs]; exact nodup_append_replicate h.2 k⟩
  cases m with
  | add_vertex v =>
    simp only [Mutation.apply, Option.some.injEq] at hm
    subst hm
    obtain ⟨k1, hk1, _⟩ := add_vertex_adj g v
    rw [hk1]
    exact nodup_append_replicate h.1 k1
  | remove_vertex v =>
    simp only [Mutation.apply, remove_vertex] at hm
    split at hm
    · simp only [Option.some.injEq] at hm
      subst hm
      exact h.1
    · cases hm
  | add_edge u v =>
    simp only [Mutation.apply] at hm
    rw [add_edge_eq] at hm
    split at hm
    · split at hm
      · simp only [Option.some.injEq] at hm
        subst hm
        exact h.1
      · simp only [Option.some.injEq] at hm
        subst hm
        have h1 := nodup_set h.1 u.toNat (nodup_push_unique (nodup_idx h.1 u) v)
        exact nodup_set h1 v.toNat (nodup_push_unique (nodup_idx h1 v) u)
    · cases hm
  | remove_edge u v =>
    simp only [Mutation.apply] at hm
    rw [remove_edge_eq] at hm
    split at hm
    · simp only [Option.some.injEq] at hm
      subst hm
      have h1 := nodup_set h.1 u.toNat
        ((nodup_idx h.1 u).filter (fun x => decide (x ≠ v)))
      exact nodup_set h1 v.toNat ((nodup_idx h1 v).filter (fun x => decide (x ≠ u)))
    · cases hm

lemma NoMultiEdge_snapshot {g : DynamicGraph} (h : NoMultiEdge g) : NoMultiEdge g.snapshot := by
  refine ⟨h.1, ?_⟩
  intro l hl
  simp only [snapshot, List.mem_map, List.mem_range] at hl
  obtain ⟨v, _, hv⟩ := hl
  split at hv
  · rw [← hv]; exact List.nodup_nil
  · rw [← hv, List.getD_eq_getElem?_getD]
    cases hq : g.adj_[v]? with
    | none => exact List.nodup_nil
    | some l1 => exact h.1 l1 (List.mem_iff_getElem?.mpr ⟨_, hq⟩)

/-- No state the public interface can produce has a multi-edge. -/
lemma Reachable.noMultiEdge {g : DynamicGraph} (h : Reachable g) : NoMultiEdge g := by
  induction h with
  | new n =>
    constructor <;>
    · intro l hl
      rw [List.eq_of_mem_replicate hl]
      exact List.nodup_nil
  | mutate m hg hm ih => exact NoMultiEdge_apply hg.wf.lenInv ih m hm
  | snapshot _ ih => exact NoMultiEdge_snapshot ih

/-- A state built from a reachable one by a sequence of mutations is reachable. -/
lemma Reachable.run (ms : List Mutation) :
    ∀ {g g1 : DynamicGraph}, Reachable g → DynamicGraph.run g ms = some g1 → Reachable g1 := by
  induction ms with
  | nil =>
    intro g g1 h hr
    simp only [DynamicGraph.run, Option.some.injEq] at hr
    exact hr ▸ h
  | cons m ms ih =>
    intro g g1 h hr
    simp only [DynamicGraph.run] at hr
    cases hm : m.apply g with
    | none => rw [hm] at hr; cases hr
    | some g2 =>
      rw [hm] at hr
      exact ih (Reachable.mutate m h hm) hr

end DynamicGraph

/-! ## Repeated edge edits and the growth of the vectors -/

namespace DynamicGraph

lemma set_getD_self {α : Type} (l : List α) (d : α) :
    ∀ i, i < l.length → l.set i (l.getD i d) = l := by
  induction l with
  | nil => intro i hi; simp at hi
  | cons a l ih =>
    intro i hi
    cases i with
    | zero => rfl
    | succ i =>
      rw [List.getD_cons_succ, List.set_cons_succ, ih i (by simpa using hi)]

lemma set_idx_self {α : Type} (l : List α) {u : Int} (d : α) (hu : InR l.length u) :
    l.set u.toNat (idx l u d) = l := by
  rw [idx_nonneg _ _ hu.1]
  exact set_getD_self l d _ hu.2

lemma adj_add_of_mem {adj : List (List Int)} {u v : Int} (hu : InR adj.length u)
    (hv : InR adj.length v) (h1 : v ∈ idx adj u []) (h2 : u ∈ idx adj v []) :
    adj_add adj u v = adj := by
  unfold adj_add
  rw [push_unique_of_mem h1, set_idx_self _ _ hu, push_unique_of_mem h2, set_idx_self _ _ hv]

lemma adj_remove_of_not_mem {adj : List (List Int)} {u v : Int} (hu : InR adj.length u)
    (hv : InR adj.length v) (h1 : v ∉ idx adj u []) (h2 : u ∉ idx adj v []) :
    adj_remove adj u v = adj := by
  have f1 : (idx adj u []).filter (fun x => decide (x ≠ v)) = idx adj u [] := by
    rw [List.filter_eq_self]
    intro a ha
    simp only [decide_eq_true_eq]
    intro hav
    exact h1 (hav ▸ ha)
  have f2 : (idx adj v []).filter (fun x => decide (x ≠ u)) = idx adj v [] := by
    rw [List.filter_eq_self]
    intro a ha
    simp only [decide_eq_true_eq]
    intro hau
    exact h2 (hau ▸ ha)
  unfold adj_remove
  rw [f1, set_idx_self _ _ hu, f2, set_idx_self _ _ hv]

lemma adj_add_idem {adj : List (List Int)} {u v : Int} (hu : InR adj.length u)
    (hv : InR adj.length v) : adj_add (adj_add adj u v) u v = adj_add adj u v := by
  apply adj_add_of_mem
  · rw [length_adj_add]; exact hu
  · rw [length_adj_add]; exact hv
  · rw [mem_idx_adj_add hu hv]; exact Or.inr (Or.inl ⟨rfl, rfl⟩)
  · rw [mem_idx_adj_add hu hv]; exact Or.inr (Or.inr ⟨rfl, rfl⟩)

lemma adj_remove_idem {adj : List (List Int)} {u v : Int} (hu : InR adj.length u)
    (hv : InR adj.length v) : adj_remove (adj_remove adj u v) u v = adj_remove adj u v := by
  apply adj_remove_of_not_mem
  · rw [length_adj_remove]; exact hu
  · rw [length_adj_remove]; exact hv
  · rw [mem_idx_adj_remove hu hv]; tauto
  · rw [mem_idx_adj_remove hu hv]; tauto

lemma set_append_replicate_last {α : Type} (l : List α) (k : Nat) (d x : α) :
    (l ++ List.replicate (k + 1) d).set (l.length + k) x = l ++ List.replicate k d ++ [x] := by
  rw [List.replicate_succ', ← List.append_assoc]
  have hlen : (l ++ List.replicate k d).length = l.length + k := by simp
  rw [← hlen, List.set_append_right _ _ (le_refl _)]
  simp

end DynamicGraph

/-! ## The peeling loop finalizes every active vertex once -/

namespace DynamicGraph

lemma mem_pq_emplace (x e : Int × Int) (l : List (Int × Int)) :
    e ∈ pq_emplace x l ↔ e = x ∨ e ∈ l := by
  induction l with
  | nil => simp [pq_emplace]
  | cons y ys ih =>
    unfold pq_emplace
    split
    · simp
    · rw [List.mem_cons, ih, List.mem_cons]
      tauto

/-- The log does not change what the loop computes. -/
lemma peel_trace_core (G : List (List Int)) (active : List Bool) (fuel : Nat) :
    ∀ (pq : List (Int × Int)) (degree : List Int) (removed : List Bool) (core : List Int),
      (peel_trace G active fuel pq degree removed core).map (fun r => r.1)
        = peel_loop G active fuel pq degree removed core := by
  induction fuel with
  | zero =>
    intro pq degree removed core
    cases pq <;> rfl
  | succ fuel ih =>
    intro pq degree removed core
    cases pq with
    | nil => rfl
    | cons x pq =>
      obtain ⟨deg_v, v⟩ := x
      unfold peel_trace peel_loop
      split
      · exact ih _ _ _ _
      · simp only [Option.map_map]
        exact ih _ _ _ _

/-- One visit of the peeling loop keeps the queue in step with the tracked degrees. -/
lemma peel_visit_pre {G : List (List Int)} {active removed : List Bool}
    (hA : active.length = G.length) (st : List Int × List (Int × Int)) (u : Int)
    (h1 : st.1.length = G.length)
    (h2 : ∀ e ∈ st.2, InR G.length e.2 ∧ idx active e.2 false = true)
    (h3 : ∀ w, InR G.length w → idx active w false = true → idx removed w false = false →
      (idx st.1 w 0, w) ∈ st.2) :
    (peel_visit active removed st u).1.length = G.length ∧
    (∀ e ∈ (peel_visit active removed st u).2, InR G.length e.2 ∧ idx active e.2 false = true) ∧
    (∀ w, InR G.length w → idx active w false = true → idx removed w false = false →
      (idx (peel_visit active removed st u).1 w 0, w) ∈ (peel_visit active removed st u).2) ∧
    st.2.length ≤ (peel_visit active removed st u).2.length := by
  unfold peel_visit
  split
  · exact ⟨h1, h2, h3, le_refl _⟩
  · rename_i hskip
    split
    · have hact : idx active u false = true := by
        by_contra hne
        exact hskip (Or.inl (by simpa using hne))
      have hu : InR G.length u := hA ▸ inR_of_active hact
      refine ⟨by simp only [List.length_set]; exact h1, ?_, ?_, ?_⟩
      · intro e he
        rcases (mem_pq_emplace _ _ _).mp he with he | he
        · rw [he]; exact ⟨hu, hact⟩
        · exact h2 e he
      · intro w hw haw hrw
        simp only
        rw [mem_pq_emplace]
        by_cases hwu : w = u
        · left
          rw [hwu, idx_set_self _ _ (by rw [h1]; exact hu)]
        · right
          rw [idx_set_ne _ _ _ hu.1 hwu]
          exact h3 w hw haw hrw
      · simp only [length_pq_emplace]
        omega
    · exact ⟨h1, h2, h3, le_refl _⟩

lemma peel_scan_pre {G : List (List Int)} {active removed : List Bool}
    (hA : active.length = G.length) (l : List Int) :
    ∀ (st : List Int × List (Int × Int)), st.1.length = G.length →
      (∀ e ∈ st.2, InR G.length e.2 ∧ idx active e.2 false = true) →
      (∀ w, InR G.length w → idx active w false = true → idx removed w false = false →
        (idx st.1 w 0, w) ∈ st.2) →
      (l.foldl (peel_visit active removed) st).1.length = G.length ∧
      (∀ e ∈ (l.foldl (peel_visit active removed) st).2,
        InR G.length e.2 ∧ idx active e.2 false = true) ∧
      (∀ w, InR G.length w → idx active w false = true → idx removed w false = false →
        (idx (l.foldl (peel_visit active removed) st).1 w 0, w)
          ∈ (l.foldl (peel_visit active removed) st).2) ∧
      st.2.length ≤ (l.foldl (peel_visit active removed) st).2.length := by
  induction l with
  | nil => intro st h1 h2 h3; exact ⟨h1, h2, h3, le_refl _⟩
  | cons u l ih =>
    intro st h1 h2 h3
    rw [List.foldl_cons]
    obtain ⟨g1, g2, g3, g4⟩ := peel_visit_pre hA st u h1 h2 h3
    obtain ⟨k1, k2, k3, k4⟩ := ih _ g1 g2 g3
    exact ⟨k1, k2, k3, le_trans g4 k4⟩


/-- The peeling loop, started in a state described by `PeelPre` and granted enough
iterations, returns and does what `PeelPost` says. -/
lemma peel_trace_spec {G : List (List Int)} {active : List Bool} (fuel : Nat) :
    ∀ (pq : List (Int × Int)) (degree : List Int) (removed : List Bool) (core : List Int),
      PeelPre G active pq degree removed core → pq.length + degSum degree ≤ fuel →
      ∃ r, peel_trace G active fuel pq degree removed core = some r ∧
        PeelPost G active degree removed core r := by
  have hnil : ∀ (f : Nat) (degree : List Int) (removed : List Bool) (core : List Int),
      PeelPre G active [] degree removed core →
      ∃ r, peel_trace G active f [] degree removed core = some r ∧
        PeelPost G active degree removed core r := by
    intro f degree removed core hpre
    refine ⟨(core, [], 0), by cases f <;> rfl, rfl, ?_, List.nodup_nil, ?_, fun _ _ => rfl,
      Nat.zero_le _⟩
    · intro e he; simp at he
    · intro v hv ha hr
      have := hpre.2.2.2.2.2 v hv ha hr
      simp at this
  induction fuel with
  | zero =>
    intro pq degree removed core hpre hfuel
    cases pq with
    | nil => exact hnil 0 degree removed core hpre
    | cons x pq => simp at hfuel
  | succ fuel ih =>
    intro pq degree removed core hpre hfuel
    cases pq with
    | nil => exact hnil _ degree removed core hpre
    | cons x pq =>
      obtain ⟨deg_v, v⟩ := x
      obtain ⟨hA, hD, hR, hC, hent, hcur⟩ := hpre
      obtain ⟨hv, hav⟩ := hent (deg_v, v) (List.mem_cons_self _ _)
      simp only at hv hav
      rw [List.length_cons] at hfuel
      unfold peel_trace
      split
      · rename_i hstale
        refine ih pq degree removed core ⟨hA, hD, hR, hC, ?_, ?_⟩ (by omega)
        · intro e he
          exact hent e (List.mem_cons_of_mem _ he)
        · intro w hw haw hrw
          rcases List.mem_cons.mp (hcur w hw haw hrw) with heq | hmem
          · exfalso
            simp only [Prod.mk.injEq] at heq
            rcases hstale with h1 | h1
            · rw [← heq.2, hrw] at h1; cases h1
            · exact h1 (by rw [← heq.2]; exact heq.1.symm)
          · exact hmem
      · rename_i hfresh
        have hrv : idx removed v false = false := by
          by_contra hne
          exact hfresh (Or.inl (by simpa using hne))
        have hr1v : idx (removed.set v.toNat true) v false = true :=
          idx_set_self _ _ (by rw [hR]; exact hv)
        have hr1o : ∀ w, w ≠ v → idx (removed.set v.toNat true) w false = idx removed w false :=
          fun w hw => idx_set_ne _ _ _ hv.1 hw
        have hne1 : ∀ w, idx (removed.set v.toNat true) w false = false → w ≠ v := by
          intro w hw hwv
          rw [hwv, hr1v] at hw
          cases hw
        obtain ⟨k1, k2, k3, k4⟩ := @peel_scan_pre G active (removed.set v.toNat true) hA
          (idx G v []) (degree, pq) hD
          (fun e he => hent e (List.mem_cons_of_mem _ he))
          (by
            intro w hw haw hrw
            have hwv := hne1 w hrw
            rw [hr1o w hwv] at hrw
            rcases List.mem_cons.mp (hcur w hw haw hrw) with heq | hmem
            · simp only [Prod.mk.injEq] at heq
              exact absurd heq.2 hwv
            · exact hmem)
        have hmeas := peel_scan_measure active (removed.set v.toNat true) (idx G v [])
          (degree, pq)
        simp only at k4 hmeas
        obtain ⟨r1, hres, p1, p2, p3, p4, p5, p6⟩ :=
          ih _ _ (removed.set v.toNat true) (core.set v.toNat deg_v)
            ⟨hA, k1, by rw [List.length_set]; exact hR, by rw [List.length_set]; exact hC, k2, k3⟩
            (by omega)
        have hvT : v ∉ r1.2.1.map Prod.snd := by
          intro hmem
          obtain ⟨e1, he1, hev⟩ := List.mem_map.mp hmem
          have := (p2 e1 he1).2.2.1
          rw [hev, hr1v] at this
          cases this
        refine ⟨(r1.1, (deg_v, v) :: r1.2.1,
          r1.2.2 + ((List.foldl (peel_visit active (removed.set v.toNat true)) (degree, pq)
            (idx G v [])).2.length - pq.length)), ?_, ?_⟩
        · dsimp only
          rw [hres]
          rfl
        refine ⟨by simp only; rw [p1, List.length_set], ?_, ?_, ?_, ?_, ?_⟩
        · intro e he
          rcases List.mem_cons.mp he with heq | hmem
          · rw [heq]
            refine ⟨hv, hav, hrv, ?_⟩
            simp only
            rw [p5 v hvT, idx_set_self _ _ (by rw [hC]; exact hv)]
          · obtain ⟨q1, q2, q3, q4⟩ := p2 e hmem
            exact ⟨q1, q2, by rw [← hr1o _ (hne1 _ q3)]; exact q3, q4⟩
        · simp only [List.map_cons]
          exact List.nodup_cons.mpr ⟨hvT, p3⟩
        · intro w hw haw hrw
          simp only [List.map_cons, List.mem_cons]
          by_cases hwv : w = v
          · exact Or.inl hwv
          · exact Or.inr (p4 w hw haw (by rw [hr1o w hwv]; exact hrw))
        · intro w hw
          simp only [List.map_cons, List.mem_cons, not_or] at hw
          simp only
          rw [p5 w hw.2, idx_set_ne _ _ _ hv.1 hw.1]
        · simp only
          omega


lemma mem_seed_fold (active : List Bool) (degree : List Int) (l : List Nat) :
    ∀ (acc : List (Int × Int)) (e : Int × Int),
      e ∈ l.foldl (fun pq v => if active.getD v false = true
          then pq_emplace (degree.getD v 0, (v : Int)) pq else pq) acc ↔
        e ∈ acc ∨ ∃ v ∈ l, active.getD v false = true ∧ e = (degree.getD v 0, (v : Int)) := by
  induction l with
  | nil => intro acc e; simp
  | cons v l ih =>
    intro acc e
    rw [List.foldl_cons, ih]
    by_cases ha : active.getD v false = true
    · rw [if_pos ha, mem_pq_emplace]
      constructor
      · rintro ((h | h) | ⟨w, hw, h⟩)
        · exact Or.inr ⟨v, List.mem_cons_self _ _, ha, h⟩
        · exact Or.inl h
        · exact Or.inr ⟨w, List.mem_cons_of_mem _ hw, h⟩
      · rintro (h | ⟨w, hw, h1, h2⟩)
        · exact Or.inl (Or.inr h)
        · rcases List.mem_cons.mp hw with hwv | hwl
          · subst hwv; exact Or.inl (Or.inl h2)
          · exact Or.inr ⟨w, hwl, h1, h2⟩
    · rw [if_neg ha]
      constructor
      · rintro (h | ⟨w, hw, h⟩)
        · exact Or.inl h
        · exact Or.inr ⟨w, List.mem_cons_of_mem _ hw, h⟩
      · rintro (h | ⟨w, hw, h1, h2⟩)
        · exact Or.inl h
        · rcases List.mem_cons.mp hw with hwv | hwl
          · subst hwv; exact absurd h1 ha
          · exact Or.inr ⟨w, hwl, h1, h2⟩

lemma length_seed_fold (active : List Bool) (degree : List Int) (l : List Nat) :
    ∀ (acc : List (Int × Int)),
      (l.foldl (fun pq v => if active.getD v false = true
          then pq_emplace (degree.getD v 0, (v : Int)) pq else pq) acc).length
        = acc.length + (l.filter (fun v => active.getD v false)).length := by
  induction l with
  | nil => intro acc; simp
  | cons v l ih =>
    intro acc
    rw [List.foldl_cons, ih]
    by_cases ha : active.getD v false = true
    · rw [if_pos ha, length_pq_emplace]
      simp only [List.filter_cons, ha, if_true, List.length_cons]
      omega
    · rw [if_neg ha]
      simp only [List.filter_cons, ha, Bool.false_eq_true, if_false]

lemma length_seed_pq (active : List Bool) (degree : List Int) (n : Nat) :
    (seed_pq active degree n).length = num_active active n := by
  unfold seed_pq num_active
  rw [length_seed_fold, List.length_nil, Nat.zero_add]

lemma idx_natCast {α : Type} (l : List α) (v : Nat) (d : α) : idx l (v : Int) d = l.getD v d := by
  rw [idx_nonneg _ _ (Int.ofNat_nonneg v), Int.toNat_ofNat]

lemma degSum_init_le (G : List (List Int)) (active : List Bool) :
    degSum ((List.range G.length).map (init_degree G active)) ≤ (G.map List.length).sum := by
  rw [← map_range_getD_length]
  unfold degSum
  rw [List.map_map]
  exact List.sum_le_sum (fun v _ => init_degree_le G active v)

lemma k_cores_eq_trace (g : DynamicGraph) :
    g.k_cores = g.k_cores_trace.map (fun r => r.1) := by
  unfold k_cores k_cores_trace
  simp only [Option.map_map]
  exact (peel_trace_core _ _ _ _ _ _ _).symm

/-- `k_cores()` returns, having finalized every active vertex exactly once. -/
lemma k_cores_trace_spec (g : DynamicGraph) (hA : g.active_.length = g.view.length) :
    ∃ core T pushes, g.k_cores_trace = some (core, T, pushes) ∧ g.k_cores = some core ∧
      core.length = g.view.length ∧
      pushes ≤ num_active g.active_ g.view.length + (g.view.map List.length).sum ∧
      (T.map Prod.snd).Nodup ∧
      (∀ v, InR g.view.length v → idx g.active_ v false = true → v ∈ T.map Prod.snd) ∧
      (∀ e ∈ T, InR g.view.length e.2 ∧ idx g.active_ e.2 false = true ∧
        idx core e.2 0 = e.1) ∧
      (∀ v, InR g.view.length v → v ∉ T.map Prod.snd → idx core v 0 = 0) := by
  have hpre : PeelPre g.view g.active_
      (seed_pq g.active_ ((List.range g.view.length).map (init_degree g.view g.active_))
        g.view.length)
      ((List.range g.view.length).map (init_degree g.view g.active_))
      (List.replicate g.view.length false) (List.replicate g.view.length 0) := by
    refine ⟨hA, by simp, by simp, by simp, ?_, ?_⟩
    · intro e he
      unfold seed_pq at he
      rw [mem_seed_fold] at he
      rcases he with he | ⟨v, hv, ha, he⟩
      · simp at he
      · rw [he]
        simp only
        rw [List.mem_range] at hv
        exact ⟨⟨Int.ofNat_nonneg v, by rw [Int.toNat_ofNat]; exact hv⟩,
          by rw [idx_natCast]; exact ha⟩
    · intro v hv ha _
      unfold seed_pq
      rw [mem_seed_fold]
      right
      refine ⟨v.toNat, List.mem_range.mpr hv.2, ?_, ?_⟩
      · rw [← idx_nonneg _ _ hv.1]; exact ha
      · rw [← idx_nonneg _ _ hv.1, Int.toNat_of_nonneg hv.1]
  have hseed := length_seed_pq g.active_
    ((List.range g.view.length).map (init_degree g.view g.active_)) g.view.length
  have hdeg := degSum_init_le g.view g.active_
  obtain ⟨r, hres, p1, p2, p3, p4, p5, p6⟩ :=
    peel_trace_spec (g.view.length + (g.view.map List.length).sum) _ _ _ _ hpre
      (by rw [hseed]
          have : num_active g.active_ g.view.length ≤ g.view.length := by
            unfold num_active
            exact le_trans (List.length_filter_le _ _) (by simp)
          omega)
  have htrace : g.k_cores_trace = some (r.1, r.2.1, r.2.2 +
      (seed_pq g.active_ ((List.range g.view.length).map (init_degree g.view g.active_))
        g.view.length).length) := by
    unfold k_cores_trace
    dsimp only
    rw [hres]
    rfl
  refine ⟨r.1, r.2.1, _, htrace, by rw [k_cores_eq_trace, htrace]; rfl,
    by rw [p1, List.length_replicate], by rw [hseed]; omega, p3, ?_, ?_, ?_⟩
  · intro v hv ha
    exact p4 v hv ha (idx_replicate _ _ _ hv)
  · intro e he
    obtain ⟨q1, q2, _, q4⟩ := p2 e he
    exact ⟨q1, q2, q4⟩
  · intro v hv hT
    rw [p5 v hT, idx_replicate _ _ _ hv]


/-- Each step of the reconstruction lowers the recorded depth by one, so the source is
reached from a discovered vertex of depth `k` after exactly `k` steps. -/
lemma reconstruct_depths {G : List (List Int)} {active : List Bool} {s t md : Int}
    {parent depth q : List Int} {u b : Int} {m : Nat}
    (h : BfsInv G active s t md parent depth q u [] b m) (k : Nat) :
    ∀ (fuel : Nat) (cur : Int) (path : List Int), InR G.length cur →
      idx depth cur 0 = (k : Int) → k ≤ fuel →
      ∃ ch, reconstruct parent s fuel cur path = some (s, path ++ ch) ∧ ch.length = k ∧
        List.Chain' (fun c a => idx depth a 0 + 1 = idx depth c 0) (cur :: ch) := by
  induction k with
  | zero =>
    intro fuel cur path hc hd _
    have hdisc : idx depth cur 0 ≠ -1 := by rw [hd]; simp
    have hcs : cur = s := by
      rcases (h.disc cur hc hdisc).2 with h1 | ⟨h2, h3, h4, _, _⟩
      · exact h1
      · have := h.dnn _ h2
        simp at hd
        omega
    refine ⟨[], ?_, rfl, List.chain'_singleton _⟩
    cases fuel <;> simp [reconstruct, hcs]
  | succ k ih =>
    intro fuel cur path hc hd hfuel
    have hdisc : idx depth cur 0 ≠ -1 := by rw [hd]; omega
    have hcs : cur ≠ s := by
      intro hcs
      rw [hcs, h.ds] at hd
      omega
    rcases (h.disc cur hc hdisc).2 with h1 | ⟨h2, h3, h4, h5, _⟩
    · exact absurd h1 hcs
    · obtain ⟨fuel, rfl⟩ : ∃ f, fuel = f + 1 := ⟨fuel - 1, by omega⟩
      have hp : idx parent cur 0 ≠ -1 := by have := h2.1; omega
      obtain ⟨ch, hrec, hlen, hchain⟩ :=
        ih fuel (idx parent cur 0) (path ++ [idx parent cur 0]) h2
          (by rw [hd] at h4; push_cast at h4; omega) (by omega)
      refine ⟨idx parent cur 0 :: ch, ?_, by simp [hlen], ?_⟩
      · rw [reconstruct, if_pos ⟨hcs, hp⟩, hrec]
        simp
      · exact List.Chain'.cons h4.symm hchain

end DynamicGraph

/-! ## Every vector access of the queries is in bounds -/

namespace DynamicGraph

lemma idx?_eq {α : Type} {l : List α} {v : Int} (d : α) (h : InR l.length v) :
    idx? l v = some (idx l v d) := by
  unfold idx? idx
  rw [if_neg (not_lt.mpr h.1), if_neg (not_lt.mpr h.1), List.getD_eq_getElem?_getD,
    List.getElem?_eq_getElem h.2]
  rfl

lemma set?_eq {α : Type} {l : List α} {v : Int} (x : α) (h : InR l.length v) :
    set? l v x = some (l.set v.toNat x) := by
  unfold set?
  rw [if_pos (show 0 ≤ v ∧ v.toNat < l.length from h)]

lemma getElem?_eq_getD {α : Type} {l : List α} {i : Nat} (d : α) (h : i < l.length) :
    l[i]? = some (l.getD i d) := by
  rw [List.getD_eq_getElem?_getD, List.getElem?_eq_getElem h]
  rfl

variable {G : List (List Int)} {active : List Bool} {s t md : Int}

/-- The accesses of one visit of the search are in bounds. -/
lemma bfs_visit_checked_eq {parent depth q : List Int} {u w : Int} {rest : List Int}
    {b : Int} {m : Nat} (h : BfsInv G active s t md parent depth q u (w :: rest) b m)
    (hA : active.length = G.length) :
    bfs_visit_checked active u (parent, depth, q) w
      = some (bfs_visit active u (parent, depth, q) w) := by
  obtain ⟨hwG, huR, _, _, _⟩ := h.mid w (List.mem_cons_self _ _)
  have hwR : InR G.length w := inR_of_mem_idx h.grange hwG
  unfold bfs_visit_checked bfs_visit
  rw [idx?_eq false (hA ▸ hwR), Option.some_bind]
  by_cases ha : idx active w false = false
  · rw [if_pos ha, if_pos ha]
  · rw [if_neg ha, if_neg ha]
    dsimp only
    rw [idx?_eq 0 (h.dlen ▸ hwR), Option.some_bind]
    by_cases hd : idx depth w 0 = -1
    · rw [if_pos hd, if_pos hd, idx?_eq 0 (h.dlen ▸ huR), Option.some_bind,
        set?_eq _ (h.dlen ▸ hwR), Option.some_bind, set?_eq _ (h.plen ▸ hwR),
        Option.some_bind]
    · rw [if_neg hd, if_neg hd]

/-- The accesses of the scan of a neighbour list are in bounds. -/
lemma bfs_scan_checked_eq {u : Int} {b : Int} {m : Nat} (hA : active.length = G.length)
    (rest : List Int) :
    ∀ (parent depth q : List Int), BfsInv G active s t md parent depth q u rest b m →
      foldl_checked (bfs_visit_checked active u) (parent, depth, q) rest
        = some (rest.foldl (bfs_visit active u) (parent, depth, q)) := by
  induction rest with
  | nil => intro parent depth q _; rfl
  | cons w rest ih =>
    intro parent depth q h
    rw [foldl_checked, bfs_visit_checked_eq h hA, Option.some_bind, List.foldl_cons]
    exact ih _ _ _ h.visit

/-- The accesses of the search loop are in bounds. -/
lemma bfs_loop_checked_eq (hA : active.length = G.length) (fuel : Nat) :
    ∀ (parent depth q : List Int) (u0 b : Int) (m : Nat),
      BfsInv G active s t md parent depth q u0 [] b m →
      bfs_loop_checked G active t md fuel parent depth q
        = bfs_loop G active t md fuel parent depth q := by
  induction fuel with
  | zero =>
    intro parent depth q u0 b m _
    cases q <;> rfl
  | succ fuel ih =>
    intro parent depth q u0 b m h
    cases q with
    | nil => rfl
    | cons u q =>
      have huR := (h.qin u (List.mem_cons_self _ _)).1
      unfold bfs_loop_checked bfs_loop
      by_cases hut : u = t
      · rw [if_pos hut, if_pos hut]
      · rw [if_neg hut, if_neg hut, idx?_eq 0 (h.dlen ▸ huR), Option.some_bind]
        by_cases hmd : idx depth u 0 ≥ md
        · rw [if_pos hmd, if_pos hmd]
          exact ih _ _ _ u _ _ (h.pop hut (Or.inl ⟨hmd, rfl⟩))
        · rw [if_neg hmd, if_neg hmd, idx?_eq [] huR, Option.some_bind]
          have hpop := h.pop hut (Or.inr ⟨by omega, rfl⟩)
          rw [bfs_scan_checked_eq hA _ _ _ _ hpop, Option.some_bind]
          exact ih _ _ _ u _ _ (hpop.scan (idx G u []) parent depth q)

/-- The accesses of the reconstruction are in bounds. -/
lemma reconstruct_checked_eq {parent depth q : List Int} {u b : Int} {m : Nat}
    (h : BfsInv G active s t md parent depth q u [] b m) (fuel : Nat) :
    ∀ (cur : Int) (path : List Int), InR G.length cur → idx depth cur 0 ≠ -1 →
      reconstruct_checked parent s fuel cur path = reconstruct parent s fuel cur path := by
  induction fuel with
  | zero =>
    intro cur path hc _
    unfold reconstruct_checked reconstruct
    by_cases hcs : cur = s
    · simp [hcs]
    · rw [if_pos hcs, idx?_eq 0 (h.plen ▸ hc), Option.some_bind]
      by_cases hp : idx parent cur 0 = -1
      · simp [hp]
      · simp [hp, hcs]
  | succ fuel ih =>
    intro cur path hc hd
    unfold reconstruct_checked reconstruct
    by_cases hcs : cur = s
    · simp [hcs]
    · rw [if_pos hcs, idx?_eq 0 (h.plen ▸ hc), Option.some_bind]
      by_cases hp : idx parent cur 0 = -1
      · simp [hp]
      · rw [if_pos hp, if_pos ⟨hcs, hp⟩]
        rcases (h.disc cur hc hd).2 with h1 | ⟨h2, h3, _, _, _⟩
        · exact absurd h1 hcs
        · exact ih _ _ h2 h3

/-- The accesses made for one pair are in bounds. -/
lemma route_checked_eq (hG : InRange G G.length) (hA : active.length = G.length)
    (md : Int) (p : Int × Int) : route_checked G active md p = route G active md p := by
  obtain ⟨s, t⟩ := p
  unfold route_checked route
  dsimp only
  by_cases hr : s < 0 ∨ t < 0 ∨ s.toNat ≥ G.length ∨ t.toNat ≥ G.length
  · rw [if_pos hr, if_pos (by tauto)]
  · have hr1 := hr
    simp only [not_or, not_lt, ge_iff_le, not_le] at hr1
    obtain ⟨hs0, ht0, hsn, htn⟩ := hr1
    have hs : InR G.length s := ⟨hs0, hsn⟩
    have ht : InR G.length t := ⟨ht0, htn⟩
    rw [if_neg hr, idx?_eq false (hA ▸ hs), Option.some_bind]
    by_cases has : idx active s false = false
    · rw [if_pos has, if_pos (by tauto)]
    · rw [if_neg has, idx?_eq false (hA ▸ ht), Option.some_bind]
      by_cases hat : idx active t false = false
      · rw [if_pos hat, if_pos (by tauto)]
      · rw [if_neg hat, if_neg (by tauto),
          set?_eq _ (show InR (List.replicate G.length (-1 : Int)).length s by
            rw [List.length_replicate]; exact hs), Option.some_bind]
        have has1 : idx active s false = true := by simpa using has
        have hinit := @BfsInv.init G active s t md hG hs has1
        rw [bfs_loop_checked_eq hA _ _ _ _ s 0 G.length hinit]
        obtain ⟨found, p1, d1, q1, u1, b1, m1, hres, hinv, hft, hff⟩ :=
          bfs_loop_spec G.length _ _ _ s 0 G.length hinit (le_refl _)
        rw [hres]
        dsimp only
        by_cases hfs : found = false ∧ s ≠ t
        · rw [if_pos hfs, if_pos hfs]
        · rw [if_neg hfs, if_neg hfs]
          have hfound : found = true := by
            cases found with
            | true => rfl
            | false =>
              exfalso
              have hq1 := hff rfl
              subst hq1
              exact hfs ⟨rfl, (hinv.proc s hs (by rw [hinv.ds]; omega) (by simp)).1⟩
          obtain ⟨q2, hq2⟩ := hft hfound
          subst hq2
          rw [reconstruct_checked_eq hinv _ t [t] ht
            (hinv.qin t (List.mem_cons_self _ _)).2]

lemma route_all_checked_eq (hG : InRange G G.length) (hA : active.length = G.length)
    (md : Int) (pairs : List (Int × Int)) :
    route_all_checked G active md pairs = route_all G active md pairs := by
  induction pairs with
  | nil => rfl
  | cons p ps ih =>
    unfold route_all_checked route_all
    rw [route_checked_eq hG hA, ih]


lemma collect_map_eq {α ι : Type} (f? : ι → Option α) (f : ι → α) (l : List ι)
    (h : ∀ v ∈ l, f? v = some (f v)) : collect (l.map f?) = some (l.map f) := by
  induction l with
  | nil => rfl
  | cons v l ih =>
    rw [List.map_cons, collect, h v (List.mem_cons_self _ _), Option.some_bind,
      ih (fun w hw => h w (List.mem_cons_of_mem _ hw))]
    rfl

lemma foldl_checked_eq {σ ι : Type} (f? : σ → ι → Option σ) (f : σ → ι → σ) (l : List ι)
    (h : ∀ st, ∀ v ∈ l, f? st v = some (f st v)) :
    ∀ st, foldl_checked f? st l = some (l.foldl f st) := by
  induction l with
  | nil => intro st; rfl
  | cons v l ih =>
    intro st
    rw [foldl_checked, h st v (List.mem_cons_self _ _), Option.some_bind, List.foldl_cons]
    exact ih (fun st1 w hw => h st1 w (List.mem_cons_of_mem _ hw)) _

/-- The accesses of the degree initialisation are in bounds. -/
lemma init_degree_checked_eq (hG : InRange G G.length) (hA : active.length = G.length)
    {v : Nat} (hv : v < G.length) :
    init_degree_checked G active v = some (init_degree G active v) := by
  unfold init_degree_checked init_degree
  rw [getElem?_eq_getD false (hA ▸ hv), Option.some_bind]
  by_cases ha : active.getD v false = false
  · rw [if_pos ha, if_pos ha]
  · rw [if_neg ha, if_neg ha, getElem?_eq_getD [] hv, Option.some_bind]
    apply foldl_checked_eq
    intro d u hu
    have hmem : G.getD v [] ∈ G := by
      rw [List.getD_eq_getElem?_getD, List.getElem?_eq_getElem hv]
      exact List.getElem_mem hv
    have huR : InR G.length u := hG _ hmem u hu
    rw [idx?_eq false (hA ▸ huR)]
    rfl

/-- The accesses of the seeding loop are in bounds. -/
lemma seed_pq_checked_eq (degree : List Int) (n : Nat) (hA : n ≤ active.length)
    (hD : n ≤ degree.length) :
    seed_pq_checked active degree n = some (seed_pq active degree n) := by
  unfold seed_pq_checked seed_pq
  apply foldl_checked_eq
  intro pq v hv
  rw [List.mem_range] at hv
  rw [getElem?_eq_getD false (by omega), Option.some_bind]
  by_cases ha : active.getD v false = true
  · rw [if_pos ha, if_pos ha, getElem?_eq_getD 0 (by omega)]
    rfl
  · rw [if_neg ha, if_neg ha]

/-- The accesses of one visit of the peeling loop are in bounds. -/
lemma peel_visit_checked_eq {removed : List Bool} (hA : active.length = G.length)
    (hR : removed.length = G.length) (st : List Int × List (Int × Int))
    (hD : st.1.length = G.length) {u : Int} (hu : InR G.length u) :
    peel_visit_checked active removed st u = some (peel_visit active removed st u) ∧
      (peel_visit active removed st u).1.length = G.length ∧
      (∀ e ∈ (peel_visit active removed st u).2, e ∈ st.2 ∨ e.2 = u) := by
  unfold peel_visit_checked peel_visit
  rw [idx?_eq false (hA ▸ hu), Option.some_bind]
  by_cases ha : idx active u false = false
  · rw [if_pos ha, if_pos (Or.inl ha)]
    exact ⟨rfl, hD, fun e he => Or.inl he⟩
  · rw [if_neg ha, idx?_eq false (hR ▸ hu), Option.some_bind]
    by_cases hr : idx removed u false = true
    · rw [if_pos hr, if_pos (Or.inr hr)]
      exact ⟨rfl, hD, fun e he => Or.inl he⟩
    · rw [if_neg hr, if_neg (by tauto), idx?_eq 0 (hD ▸ hu), Option.some_bind]
      by_cases hpos : idx st.1 u 0 > 0
      · rw [if_pos hpos, if_pos hpos, set?_eq _ (hD ▸ hu)]
        refine ⟨rfl, by simp only [List.length_set]; exact hD, ?_⟩
        intro e he
        rcases (mem_pq_emplace _ _ _).mp he with he | he
        · right; rw [he]
        · exact Or.inl he
      · rw [if_neg hpos, if_neg hpos]
        exact ⟨rfl, hD, fun e he => Or.inl he⟩

/-- The accesses of the scan of a neighbour list by the peeling loop are in bounds. -/
lemma peel_scan_checked_eq {removed : List Bool} (hA : active.length = G.length)
    (hR : removed.length = G.length) (l : List Int) (hl : ∀ u ∈ l, InR G.length u) :
    ∀ (st : List Int × List (Int × Int)), st.1.length = G.length →
      (∀ e ∈ st.2, InR G.length e.2) →
      foldl_checked (peel_visit_checked active removed) st l
          = some (l.foldl (peel_visit active removed) st) ∧
        (l.foldl (peel_visit active removed) st).1.length = G.length ∧
        (∀ e ∈ (l.foldl (peel_visit active removed) st).2, InR G.length e.2) := by
  induction l with
  | nil => intro st hD hE; exact ⟨rfl, hD, hE⟩
  | cons u l ih =>
    intro st hD hE
    have hu := hl u (List.mem_cons_self _ _)
    obtain ⟨h1, h2, h3⟩ := peel_visit_checked_eq hA hR st hD hu
    rw [foldl_checked, h1, Option.some_bind, List.foldl_cons]
    refine ih (fun w hw => hl w (List.mem_cons_of_mem _ hw)) _ h2 ?_
    intro e he
    rcases h3 e he with h4 | h4
    · exact hE e h4
    · rw [h4]; exact hu

/-- The accesses of the peeling loop are in bounds. -/
lemma peel_loop_checked_eq (hG : InRange G G.length) (hA : active.length = G.length)
    (fuel : Nat) :
    ∀ (pq : List (Int × Int)) (degree : List Int) (removed : List Bool) (core : List Int),
      degree.length = G.length → removed.length = G.length → core.length = G.length →
      (∀ e ∈ pq, InR G.length e.2) →
      peel_loop_checked G active fuel pq degree removed core
        = peel_loop G active fuel pq degree removed core := by
  induction fuel with
  | zero =>
    intro pq degree removed core _ _ _ _
    cases pq <;> rfl
  | succ fuel ih =>
    intro pq degree removed core hD hR hC hE
    cases pq with
    | nil => rfl
    | cons x pq =>
      obtain ⟨deg_v, v⟩ := x
      have hv : InR G.length v := hE (deg_v, v) (List.mem_cons_self _ _)
      have hE1 : ∀ e ∈ pq, InR G.length e.2 := fun e he => hE e (List.mem_cons_of_mem _ he)
      unfold peel_loop_checked peel_loop
      rw [idx?_eq false (hR ▸ hv), Option.some_bind]
      by_cases hr : idx removed v false = true
      · rw [if_pos hr, if_pos (Or.inl hr)]
        exact ih _ _ _ _ hD hR hC hE1
      · rw [if_neg hr, idx?_eq 0 (hD ▸ hv), Option.some_bind]
        by_cases hd : deg_v ≠ idx degree v 0
        · rw [if_pos hd, if_pos (Or.inr hd)]
          exact ih _ _ _ _ hD hR hC hE1
        · rw [if_neg hd, if_neg (by tauto), set?_eq _ (hR ▸ hv), Option.some_bind,
            set?_eq _ (hC ▸ hv), Option.some_bind, idx?_eq [] hv, Option.some_bind]
          have hR1 : (removed.set v.toNat true).length = G.length := by
            rw [List.length_set]; exact hR
          obtain ⟨h1, h2, h3⟩ := peel_scan_checked_eq hA hR1 (idx G v [])
            (fun u hu => inR_of_mem_idx hG hu) (degree, pq) hD hE1
          rw [h1, Option.some_bind]
          exact ih _ _ _ _ h2 hR1 (by rw [List.length_set]; exact hC) h3

/-- Every vector access of `k_cores()` is in bounds on a well-formed state. -/
lemma k_cores_checked_eq {g : DynamicGraph} (hg : WF g) : g.k_cores_checked = g.k_cores := by
  have hG := hg.view_inRange
  have hA : g.active_.length = g.view.length := by rw [hg.view_length]; exact hg.1
  unfold k_cores_checked k_cores
  dsimp only
  rw [collect_map_eq _ (init_degree g.view g.active_) _
    (fun v hv => init_degree_checked_eq hG hA (List.mem_range.mp hv)), Option.some_bind,
    seed_pq_checked_eq _ _ (by omega) (by simp), Option.some_bind]
  apply peel_loop_checked_eq hG hA _ _ _ _ _ (by simp) (by simp) (by simp)
  intro e he
  have he1 : e ∈ seed_pq g.active_
      ((List.range g.view.length).map (init_degree g.view g.active_)) g.view.length := he
  unfold seed_pq at he1
  rw [mem_seed_fold] at he1
  rcases he1 with he1 | ⟨v, hv, _, he1⟩
  · simp at he1
  · rw [he1]
    rw [List.mem_range] at hv
    exact ⟨Int.ofNat_nonneg v, by simp only [Int.toNat_ofNat]; exact hv⟩

/-- Every vector access of `min_cost_routing` is in bounds on a well-formed state. -/
lemma min_cost_routing_checked_eq {g : DynamicGraph} (hg : WF g) (pairs : List (Int × Int))
    (md : Int) : g.min_cost_routing_checked pairs md = g.min_cost_routing pairs md := by
  unfold min_cost_routing_checked min_cost_routing
  exact route_all_checked_eq hg.view_inRange (by rw [hg.view_length]; exact hg.1) md pairs

/-- On an in-range handle the access of `neighbors` is in bounds. -/
lemma neighbors_checked_eq {g : DynamicGraph} (hg : WF g) {v : Int}
    (hv : InR g.adj_.length v) :
    g.neighbors_checked v = g.neighbors v ∧ ∃ l, g.neighbors v = some l := by
  unfold neighbors_checked neighbors
  rw [if_pos ((check_vertex_iff _ _).mpr hv), if_pos ((check_vertex_iff _ _).mpr hv)]
  split
  · exact ⟨idx?_eq [] (hg.2.1 ▸ hv), _, rfl⟩
  · exact ⟨idx?_eq [] hv, _, rfl⟩

end DynamicGraph

/-! ## The claims -/

namespace DynamicGraph

/-- C1 (the code departs from the claim): on the engine built by `DynamicGraph g(2)` and
`add_edge(0, 1)`, with `snapshot()` never called, the live neighbour list of 0 is `[1]`,
yet `neighbors(0)` returns the empty list, routing from 0 to 1 finds no path and
`k_cores()` reports core number 0 for both vertices: the constructor fills
`snapshot_adj_` with `N` empty lists, so the view is never the live structure. -/
theorem C1_queries_before_snapshot_read_empty_snapshot :
    ∃ g, (new 2).add_edge 0 1 = some g ∧ idx g.adj_ 0 [] = [1] ∧
      g.neighbors 0 = some [] ∧ g.min_cost_routing [(0, 1)] 5 = some [[]] ∧
      g.k_cores = some [0, 0] :=
  ⟨{ adj_ := [[1], [0]], snapshot_adj_ := [[], []], active_ := [true, true] },
    by decide, by decide, by decide, by decide, by decide⟩

/-- C2 (counterexample): on the frozen path graph 0-1-2-3-4, `remove_vertex(4)` after the
snapshot changes the result of routing (0, 4) from `[0,1,2,3,4]` to the empty path and
the core numbers from `[1,1,1,1,0]` to `[1,1,1,0,0]`. -/
theorem C2_counterexample :
    ∃ g1, run path5 [.remove_vertex 4] = some g1 ∧
      path5.min_cost_routing [(0, 4)] 4 = some [[0, 1, 2, 3, 4]] ∧
      g1.min_cost_routing [(0, 4)] 4 = some [[]] ∧
      path5.k_cores = some [1, 1, 1, 1, 0] ∧ g1.k_cores = some [1, 1, 1, 0, 0] :=
  ⟨{ path5 with active_ := [true, true, true, true, false] },
    by decide, by decide, by decide, by decide, by decide⟩

/-- C2 (amended): after `snapshot()`, for every sequence of live mutations without
another `snapshot()` after which the active flags are the ones of the snapshot instant,
`min_cost_routing(pairs, max_depth)` and `k_cores()` return exactly the values they
returned immediately after the `snapshot()` call; every sequence of `add_edge` and
`remove_edge` calls is such a sequence. -/
theorem C2_snapshot_isolation_for_unchanged_flags (g : DynamicGraph) (hg : WF g)
    (ms : List Mutation) (g1 : DynamicGraph) (hrun : run g.snapshot ms = some g1)
    (pairs : List (Int × Int)) (max_depth : Int) :
    (g1.active_ = g.active_ →
      ∃ paths core,
        g.snapshot.min_cost_routing pairs max_depth = some paths ∧
        g1.min_cost_routing pairs max_depth = some paths ∧
        g.snapshot.k_cores = some core ∧ g1.k_cores = some core) ∧
    ((∀ m ∈ ms, m.isEdgeEdit = true) → g1.active_ = g.active_) := by
  refine ⟨fun hact => ?_,
    fun hall => (run_edge_edits_active ms hall hrun : g1.active_ = g.snapshot.active_)⟩
  have hview := view_frozen hg.lenInv ms hrun hact
  obtain ⟨paths, hp, _⟩ := min_cost_routing_spec (WF_snapshot hg) pairs max_depth
  obtain ⟨core, hc, _⟩ := k_cores_total g.snapshot
  refine ⟨paths, core, hp, ?_, hc, ?_⟩
  · rw [min_cost_routing_congr hview hact pairs max_depth]
    exact hp
  · rw [k_cores_congr hview hact]
    exact hc

/-- Witness of C2 (amended): on the path graph, `add_edge(0, 2)`, `remove_vertex(3)`,
`add_vertex(3)` and `remove_edge(0, 1)` after the snapshot change no query result. -/
theorem C2_snapshot_isolation_for_unchanged_flags_witness :
    WF path5_live ∧
    run path5_live.snapshot
        [.add_edge 0 2, .remove_vertex 3, .add_vertex 3, .remove_edge 0 1]
      = some { adj_ := [[2], [2], [1, 3, 0], [2, 4], [3]],
               snapshot_adj_ := [[1], [0, 2], [1, 3], [2, 4], [3]],
               active_ := [true, true, true, true, true] } ∧
    ∃ paths core,
      path5_live.snapshot.min_cost_routing [(0, 4)] 4 = some paths ∧
      (DynamicGraph.mk [[2], [2], [1, 3, 0], [2, 4], [3]] [[1], [0, 2], [1, 3], [2, 4], [3]]
        [true, true, true, true, true]).min_cost_routing [(0, 4)] 4 = some paths ∧
      path5_live.snapshot.k_cores = some core ∧
      (DynamicGraph.mk [[2], [2], [1, 3, 0], [2, 4], [3]] [[1], [0, 2], [1, 3], [2, 4], [3]]
        [true, true, true, true, true]).k_cores = some core :=
  ⟨by decide, by decide,
    (C2_snapshot_isolation_for_unchanged_flags path5_live (by decide)
      [.add_edge 0 2, .remove_vertex 3, .add_vertex 3, .remove_edge 0 1] _ (by decide)
      [(0, 4)] 4).1 (by decide)⟩

/-- C3: for an engine with `N > 0` vertices, after `snapshot()` followed by any sequence
of `add_vertex`, `remove_vertex`, `add_edge` and `remove_edge` calls, `neighbors(v)` for
`v` in `[0, N)` returns the live neighbour list `v` had at the snapshot instant if `v` was
active then and the empty list otherwise; `snapshot()` itself leaves the live adjacency
lists and the active flags unchanged. -/
theorem C3_frozen_neighbor_view (g : DynamicGraph) (hg : WF g) (hN : 0 < g.adj_.length)
    (ms : List Mutation) (g1 : DynamicGraph) (hrun : run g.snapshot ms = some g1)
    (v : Int) (hv : InR g.adj_.length v) :
    g1.neighbors v = some (if idx g.active_ v false = true then idx g.adj_ v [] else []) ∧
      g.snapshot.adj_ = g.adj_ ∧ g.snapshot.active_ = g.active_ := by
  refine ⟨?_, rfl, rfl⟩
  obtain ⟨_, k, hs, hl⟩ := run_frame ms (snapshot_lenInv hg.lenInv) hrun
  have hsl : g.snapshot.snapshot_adj_.length = g.adj_.length := (snapshot_lenInv hg.lenInv).2
  have h2 : g.snapshot.adj_.length = g.adj_.length := rfl
  have hcheck : check_vertex v g1.adj_.length = true := by
    have := hv.1
    have := hv.2
    simp only [check_vertex, Bool.and_eq_true, decide_eq_true_eq]
    omega
  have hne : ¬ g1.snapshot_adj_.isEmpty = true := by
    intro h
    have h0 : g1.snapshot_adj_.length = 0 := by rw [List.isEmpty_iff.mp h]; rfl
    rw [hs, List.length_append, hsl] at h0
    omega
  unfold neighbors
  rw [if_pos hcheck, if_pos hne, hs, idx_append_left _ _ _ (by rw [hsl]; exact hv),
    idx_snapshot g hv]

/-- Witness of C3: on the path graph, after the snapshot and the calls `remove_edge(0, 1)`,
`remove_vertex(1)` and `add_vertex(6)`, `neighbors(1)` is still `[0, 2]`. -/
theorem C3_frozen_neighbor_view_witness :
    WF path5_live ∧ 0 < path5_live.adj_.length ∧
    run path5_live.snapshot [.remove_edge 0 1, .remove_vertex 1, .add_vertex 6]
      = some { adj_ := [[], [2], [1, 3], [2, 4], [3], [], []],
               snapshot_adj_ := [[1], [0, 2], [1, 3], [2, 4], [3], [], []],
               active_ := [true, false, true, true, true, false, true] } ∧
    InR path5_live.adj_.length 1 ∧
    (DynamicGraph.mk [[], [2], [1, 3], [2, 4], [3], [], []]
        [[1], [0, 2], [1, 3], [2, 4], [3], [], []]
        [true, false, true, true, true, false, true]).neighbors 1 = some [0, 2] :=
  ⟨by decide, by decide, by decide, by decide,
    (C3_frozen_neighbor_view path5_live (by decide) (by decide)
      [.remove_edge 0 1, .remove_vertex 1, .add_vertex 6] _ (by decide) 1 (by decide)).1⟩

/-- C4 (counterexample): after `DynamicGraph g(2)`, `add_edge(0, 1)`, `remove_vertex(1)`
and `snapshot()`, vertex 1 is inactive and `neighbors(0)` still returns `[1]`. -/
theorem C4_counterexample :
    run (new 2) [.add_edge 0 1, .remove_vertex 1] = some edge_removed_live ∧
      idx edge_removed_live.snapshot.active_ 1 false = false ∧
      edge_removed_live.snapshot.neighbors 0 = some [1] :=
  ⟨by decide, by decide, by decide⟩

/-- C4 (amended): immediately after `snapshot()`, `neighbors(w)` is empty for every
in-range inactive vertex `w` (no outgoing edges), and `neighbors(u)` for an in-range active
vertex `u` is the live neighbour list of `u`, copied as it is. -/
theorem C4_snapshot_clears_inactive_lists (g : DynamicGraph) (hg : WF g) (v : Int)
    (hv : InR g.adj_.length v) :
    (idx g.active_ v false = false → g.snapshot.neighbors v = some []) ∧
      (idx g.active_ v false = true → g.snapshot.neighbors v = some (idx g.adj_ v [])) := by
  have hsl : g.snapshot.snapshot_adj_.length = g.adj_.length := (snapshot_lenInv hg.lenInv).2
  have h2 : g.snapshot.adj_.length = g.adj_.length := rfl
  have hcheck : check_vertex v g.snapshot.adj_.length = true := by
    have := hv.1
    have := hv.2
    simp only [check_vertex, Bool.and_eq_true, decide_eq_true_eq]
    omega
  have hne : ¬ g.snapshot.snapshot_adj_.isEmpty = true := by
    intro h
    have h0 : g.snapshot.snapshot_adj_.length = 0 := by rw [List.isEmpty_iff.mp h]; rfl
    have := hv.2
    omega
  have hn : g.snapshot.neighbors v
      = some (if idx g.active_ v false = true then idx g.adj_ v [] else []) := by
    unfold neighbors
    rw [if_pos hcheck, if_pos hne, idx_snapshot g hv]
  constructor
  · intro h
    rw [hn, h]
    rfl
  · intro h
    rw [hn, if_pos h]

/-- Witness of C4 (amended): in the snapshot of the edge 0-1 with vertex 1 removed,
`neighbors(1)` is empty. -/
theorem C4_snapshot_clears_inactive_lists_witness :
    WF edge_removed_live ∧ InR edge_removed_live.adj_.length 1 ∧
      edge_removed_live.snapshot.neighbors 1 = some [] :=
  ⟨by decide, by decide,
    (C4_snapshot_clears_inactive_lists edge_removed_live (by decide) 1 (by decide)).1
      (by decide)⟩


/-- C5 (the code departs from the claim): on the cycle 0-1-2-3-4-0, built by five
`add_edge` calls and frozen with `snapshot()`, every vertex has two active neighbours,
so the whole cycle is a subgraph of minimum degree 2 and every core number is 2; yet
`k_cores()` returns `[2, 1, 1, 1, 0]`. -/
theorem C5_k_cores_on_five_cycle :
    (run (new 5) [.add_edge 0 1, .add_edge 1 2, .add_edge 2 3, .add_edge 3 4,
        .add_edge 4 0]).map snapshot = some cycle5 ∧
      (∀ v ∈ [0, 1, 2, 3, 4],
        ((idx cycle5.view v []).filter (fun u => idx cycle5.active_ u false)).length = 2) ∧
      cycle5.k_cores = some [2, 1, 1, 1, 0] :=
  ⟨by decide, by decide, by decide⟩

/-- C6 (the code departs from the claim): on the frozen cycle 0-1-2-3-4-0 the returned
core numbers are `[2, 1, 1, 1, 0]`, so for `k = 2` the set `{u : core[u] ≥ 2}` is `{0}`;
vertex 0 has the neighbours 1 and 4, none of them in that set, and the check of the
repository's k-core test fails on it. -/
theorem C6_k_core_check_fails_on_five_cycle :
    cycle5.k_cores = some [2, 1, 1, 1, 0] ∧ core_at_least [2, 1, 1, 1, 0] 2 = [0] ∧
      cycle5.neighbors 0 = some [1, 4] ∧
      ([1, 4].filter (fun u => decide (u ∈ core_at_least [2, 1, 1, 1, 0] 2))).length = 0 ∧
      check_k_core_correctness cycle5 2 (core_at_least [2, 1, 1, 1, 0] 2) = some false :=
  ⟨by decide, by decide, by decide, by decide, by decide⟩


/-- C7: `min_cost_routing(pairs, max_depth)` returns a list of the same length as
`pairs`, and if its `i`-th path is non-empty, that path starts at the source of
`pairs[i]`, ends at its target, has only active vertices on it, and each vertex on it
occurs in the view's neighbour list of the vertex before it. -/
theorem C7_routing_paths_are_valid (g : DynamicGraph) (hg : WF g)
    (pairs : List (Int × Int)) (max_depth : Int) :
    ∃ paths, g.min_cost_routing pairs max_depth = some paths ∧
      paths.length = pairs.length ∧
      ∀ (i : Nat) (p : Int × Int) (path : List Int),
        pairs[i]? = some p → paths[i]? = some path → path ≠ [] →
          path.head? = some p.1 ∧ path.getLast? = some p.2 ∧
          (∀ v ∈ path, idx g.active_ v false = true) ∧
          List.Chain' (fun a b => b ∈ idx g.view a []) path := by
  obtain ⟨paths, h1, h2⟩ := min_cost_routing_spec hg pairs max_depth
  refine ⟨paths, h1, h2.length_eq.symm, ?_⟩
  intro i p path hp hpath hne
  obtain ⟨⟨hchain, hact⟩, hhead, hlast⟩ := (forall₂_getElem? h2 i p path hp hpath).1 hne
  exact ⟨hhead, hlast, hact, hchain⟩

/-- Witness of C7: the frozen path graph with the pairs (0, 4) and (3, 1). -/
theorem C7_routing_paths_are_valid_witness :
    WF path5 ∧
    ∃ paths, path5.min_cost_routing [(0, 4), (3, 1)] 4 = some paths ∧
      paths.length = [((0 : Int), (4 : Int)), (3, 1)].length ∧
      ∀ (i : Nat) (p : Int × Int) (path : List Int),
        [((0 : Int), (4 : Int)), (3, 1)][i]? = some p → paths[i]? = some path → path ≠ [] →
          path.head? = some p.1 ∧ path.getLast? = some p.2 ∧
          (∀ v ∈ path, idx path5.active_ v false = true) ∧
          List.Chain' (fun a b => b ∈ idx path5.view a []) path :=
  ⟨by decide, C7_routing_paths_are_valid path5 (by decide) [(0, 4), (3, 1)] 4⟩

/-- C8: for `max_depth ≥ 0`, a non-empty path returned for the pair `(s, t)` has at most
`max_depth + 1` vertices, is a walk from `s` to `t` through active vertices of the
queried view, and no walk from `s` to `t` through active vertices of the view has fewer
vertices (hence none has fewer edges). -/
theorem C8_routing_paths_are_shortest (g : DynamicGraph) (hg : WF g)
    (pairs : List (Int × Int)) (max_depth : Int) (hmd : 0 ≤ max_depth) :
    ∃ paths, g.min_cost_routing pairs max_depth = some paths ∧
      ∀ (i : Nat) (p : Int × Int) (path : List Int),
        pairs[i]? = some p → paths[i]? = some path → path ≠ [] →
          (path.length : Int) ≤ max_depth + 1 ∧ WalkFromTo g.view g.active_ p.1 p.2 path ∧
          ∀ w, WalkFromTo g.view g.active_ p.1 p.2 w → path.length ≤ w.length := by
  obtain ⟨paths, h1, h2⟩ := min_cost_routing_spec hg pairs max_depth
  refine ⟨paths, h1, ?_⟩
  intro i p path hp hpath hne
  obtain ⟨hwalk, hlen, hmin, _⟩ := forall₂_getElem? h2 i p path hp hpath
  exact ⟨hlen hne hmd, hwalk hne, hmin hne⟩

/-- Witness of C8: the frozen cycle 0-1-2-3-4-0 with the pair (0, 3) and bound 5. -/
theorem C8_routing_paths_are_shortest_witness :
    WF cycle5 ∧ (0 : Int) ≤ 5 ∧
    ∃ paths, cycle5.min_cost_routing [(0, 3)] 5 = some paths ∧
      ∀ (i : Nat) (p : Int × Int) (path : List Int),
        [((0 : Int), (3 : Int))][i]? = some p → paths[i]? = some path → path ≠ [] →
          (path.length : Int) ≤ 5 + 1 ∧ WalkFromTo cycle5.view cycle5.active_ p.1 p.2 path ∧
          ∀ w, WalkFromTo cycle5.view cycle5.active_ p.1 p.2 w → path.length ≤ w.length :=
  ⟨by decide, by decide,
    C8_routing_paths_are_shortest cycle5 (by decide) [(0, 3)] 5 (by decide)⟩

/-- C9: for `max_depth ≥ 0`, `min_cost_routing` fails on no input, and the path returned
for the pair `(s, t)` is empty if and only if `s` or `t` is out of range or inactive, or
no walk of at most `max_depth` edges through active vertices leads from `s` to `t` in the
queried view.  On the frozen path graph 0-1-2-3-4, routing (0, 4) gives the empty path
for `max_depth = 3` and `[0, 1, 2, 3, 4]` for `max_depth = 4`. -/
theorem C9_empty_path_characterisation (g : DynamicGraph) (hg : WF g)
    (pairs : List (Int × Int)) (max_depth : Int) (hmd : 0 ≤ max_depth) :
    (∃ paths, g.min_cost_routing pairs max_depth = some paths ∧
      ∀ (i : Nat) (p : Int × Int) (path : List Int),
        pairs[i]? = some p → paths[i]? = some path →
          (path = [] ↔ (¬ InR g.adj_.length p.1 ∨ ¬ InR g.adj_.length p.2 ∨
            idx g.active_ p.1 false = false ∨ idx g.active_ p.2 false = false ∨
            ¬ ∃ w, WalkFromTo g.view g.active_ p.1 p.2 w ∧
              (w.length : Int) ≤ max_depth + 1))) ∧
    path5.min_cost_routing [(0, 4)] 3 = some [[]] ∧
    path5.min_cost_routing [(0, 4)] 4 = some [[0, 1, 2, 3, 4]] := by
  refine ⟨?_, by decide, by decide⟩
  obtain ⟨paths, h1, h2⟩ := min_cost_routing_spec hg pairs max_depth
  refine ⟨paths, h1, ?_⟩
  intro i p path hp hpath
  have := (forall₂_getElem? h2 i p path hp hpath).2.2.2 hmd
  rw [hg.view_length] at this
  exact this

/-- Witness of C9: the frozen path graph with the pair (0, 4) and bound 3. -/
theorem C9_empty_path_characterisation_witness :
    WF path5 ∧ (0 : Int) ≤ 3 ∧
    ∃ paths, path5.min_cost_routing [(0, 4)] 3 = some paths ∧
      ∀ (i : Nat) (p : Int × Int) (path : List Int),
        [((0 : Int), (4 : Int))][i]? = some p → paths[i]? = some path →
          (path = [] ↔ (¬ InR path5.adj_.length p.1 ∨ ¬ InR path5.adj_.length p.2 ∨
            idx path5.active_ p.1 false = false ∨ idx path5.active_ p.2 false = false ∨
            ¬ ∃ w, WalkFromTo path5.view path5.active_ p.1 p.2 w ∧
              (w.length : Int) ≤ 3 + 1)) :=
  ⟨by decide, by decide,
    (C9_empty_path_characterisation path5 (by decide) [(0, 4)] 3 (by decide)).1⟩

/-- C10: for every in-range active vertex `s` and every integer `max_depth`, zero and
negative values included, `min_cost_routing([(s, s)], max_depth)` returns exactly the one
single-vertex path `[s]`. -/
theorem C10_source_equals_target (g : DynamicGraph) (hg : WF g) (s : Int)
    (hs : InR g.adj_.length s) (ha : idx g.active_ s false = true) (max_depth : Int) :
    g.min_cost_routing [(s, s)] max_depth = some [[s]] := by
  have hlen := hg.view_length
  obtain ⟨k, hk⟩ : ∃ k, g.view.length = k + 1 :=
    ⟨g.adj_.length - 1, by have := hs.2; omega⟩
  have hbad : ¬ (s < 0 ∨ s < 0 ∨ s.toNat ≥ g.view.length ∨ s.toNat ≥ g.view.length ∨
      idx g.active_ s false = false ∨ idx g.active_ s false = false) := by
    have := hs.1
    have := hs.2
    rw [ha]
    simp
    omega
  simp only [min_cost_routing, route_all, route]
  rw [if_neg hbad, hk]
  simp [bfs_loop, reconstruct]

/-- Witness of C10: vertex 2 of the frozen path graph with the negative bound -1. -/
theorem C10_source_equals_target_witness :
    WF path5 ∧ InR path5.adj_.length 2 ∧ idx path5.active_ 2 false = true ∧
      path5.min_cost_routing [(2, 2)] (-1) = some [[2]] :=
  ⟨by decide, by decide, by decide,
    C10_source_equals_target path5 (by decide) 2 (by decide) (by decide) (-1)⟩

/-- C11: in every state reachable from construction by `add_vertex`, `remove_vertex`,
`add_edge`, `remove_edge` and `snapshot` calls, for all handles `u` and `v` (in range or
not), `v` occurs in the live neighbour list of `u` if and only if `u` occurs in the live
neighbour list of `v`. -/
theorem C11_live_graph_is_symmetric (g : DynamicGraph) (hg : Reachable g) (u v : Int) :
    v ∈ idx g.adj_ u [] ↔ u ∈ idx g.adj_ v [] :=
  hg.symmetric u v

/-- Witness of C11: vertices 1 and 2 of the path graph. -/
theorem C11_live_graph_is_symmetric_witness :
    Reachable path5_live ∧
      ((2 : Int) ∈ idx path5_live.adj_ 1 [] ↔ (1 : Int) ∈ idx path5_live.adj_ 2 []) :=
  ⟨Reachable.run _ (Reachable.new 5) path5_live_built,
    C11_live_graph_is_symmetric path5_live
      (Reachable.run _ (Reachable.new 5) path5_live_built) 1 2⟩

/-- C12: for in-range `u` and `v`, a second `add_edge(u, v)` leaves the state reached by
the first one unchanged, a second `remove_edge(u, v)` leaves the state reached by the first
one unchanged, and `remove_edge(u, v)` leaves the state unchanged when neither endpoint
lists the other. -/
theorem C12_edge_edits_are_idempotent (g : DynamicGraph) (u v : Int)
    (hu : InR g.adj_.length u) (hv : InR g.adj_.length v) :
    (∃ g1, g.add_edge u v = some g1 ∧ g1.add_edge u v = some g1) ∧
    (∃ g1, g.remove_edge u v = some g1 ∧ g1.remove_edge u v = some g1) ∧
    (v ∉ idx g.adj_ u [] → u ∉ idx g.adj_ v [] → g.remove_edge u v = some g) := by
  have hc : (check_vertex u g.adj_.length && check_vertex v g.adj_.length) = true :=
    (check_both_iff u v _).mpr ⟨hu, hv⟩
  refine ⟨?_, ?_, ?_⟩
  · by_cases hact : idx g.active_ u false = false ∨ idx g.active_ v false = false
    · exact ⟨g, by rw [add_edge_eq, if_pos hc, if_pos hact],
        by rw [add_edge_eq, if_pos hc, if_pos hact]⟩
    · refine ⟨{ g with adj_ := adj_add g.adj_ u v },
        by rw [add_edge_eq, if_pos hc, if_neg hact], ?_⟩
      rw [add_edge_eq]
      simp only [length_adj_add]
      rw [if_pos hc, if_neg hact, adj_add_idem hu hv]
  · refine ⟨{ g with adj_ := adj_remove g.adj_ u v }, by rw [remove_edge_eq, if_pos hc], ?_⟩
    rw [remove_edge_eq]
    simp only [length_adj_remove]
    rw [if_pos hc, adj_remove_idem hu hv]
  · intro h1 h2
    rw [remove_edge_eq, if_pos hc, adj_remove_of_not_mem hu hv h1 h2]

/-- Witness of C12: the edge 1-3 on the path graph. -/
theorem C12_edge_edits_are_idempotent_witness :
    InR path5_live.adj_.length 1 ∧ InR path5_live.adj_.length 3 ∧
    (∃ g1, path5_live.add_edge 1 3 = some g1 ∧ g1.add_edge 1 3 = some g1) ∧
    (∃ g1, path5_live.remove_edge 1 3 = some g1 ∧ g1.remove_edge 1 3 = some g1) ∧
    ((3 : Int) ∉ idx path5_live.adj_ 1 [] → (1 : Int) ∉ idx path5_live.adj_ 3 [] →
      path5_live.remove_edge 1 3 = some path5_live) :=
  ⟨by decide, by decide, C12_edge_edits_are_idempotent path5_live 1 3 (by decide) (by decide)⟩

/-- C13: on an engine with `N` vertices, `add_vertex(v)` leaves the state unchanged when
`v < 0`; when `0 ≤ v < N` it sets the active flag of `v` and nothing else; when `v ≥ N` it
appends `v + 1 - N` empty lists to the live and to the snapshot adjacency lists and
appends to the flags `v - N` times `false` followed by `true`, so that the vertex count
becomes `v + 1`; the vertex count never decreases. -/
theorem C13_add_vertex_semantics (g : DynamicGraph) (hg : WF g) (v : Int) :
    (v < 0 → g.add_vertex v = g) ∧
    (0 ≤ v → v.toNat < g.adj_.length →
      g.add_vertex v = { g with active_ := g.active_.set v.toNat true }) ∧
    (0 ≤ v → g.adj_.length ≤ v.toNat →
      (g.add_vertex v).adj_ = g.adj_ ++ List.replicate (v.toNat + 1 - g.adj_.length) [] ∧
      (g.add_vertex v).snapshot_adj_
        = g.snapshot_adj_ ++ List.replicate (v.toNat + 1 - g.adj_.length) [] ∧
      (g.add_vertex v).active_
        = g.active_ ++ List.replicate (v.toNat - g.adj_.length) false ++ [true] ∧
      (g.add_vertex v).adj_.length = v.toNat + 1) ∧
    g.adj_.length ≤ (g.add_vertex v).adj_.length := by
  obtain ⟨ha, hs, _, _⟩ := hg
  refine ⟨?_, ?_, ?_, ?_⟩
  · intro hv
    unfold add_vertex
    rw [if_pos hv]
  · intro hv hlt
    unfold add_vertex
    rw [if_neg (by omega)]
    simp only [if_neg (show ¬ v.toNat ≥ g.adj_.length by omega)]
  · intro hv hge
    unfold add_vertex
    rw [if_neg (by omega)]
    simp only [if_pos (show v.toNat ≥ g.adj_.length from hge)]
    refine ⟨resize_of_le _ _ _ (by omega), ?_, ?_, length_resize _ _ _ (by omega)⟩
    · rw [resize_of_le _ _ _ (by omega), hs]
    · rw [resize_of_le _ _ _ (by omega), ha]
      obtain ⟨k, hk⟩ : ∃ k, v.toNat = g.adj_.length + k := ⟨v.toNat - g.adj_.length, by omega⟩
      rw [hk, show g.adj_.length + k + 1 - g.adj_.length = k + 1 by omega,
        show g.adj_.length + k - g.adj_.length = k by omega, ← ha]
      exact set_append_replicate_last _ _ _ _
  · obtain ⟨k, hk, _⟩ := add_vertex_adj g v
    rw [hk, List.length_append]
    omega

/-- Witness of C13: `add_vertex(6)` on the path graph with five vertices. -/
theorem C13_add_vertex_semantics_witness :
    WF path5_live ∧
    (path5_live.add_vertex 6).adj_ = [[1], [0, 2], [1, 3], [2, 4], [3], [], []] ∧
    (path5_live.add_vertex 6).active_ = [true, true, true, true, true, false, true] :=
  ⟨by decide,
    ((C13_add_vertex_semantics path5_live (by decide) 6).2.2.1 (by decide) (by decide)).1,
    ((C13_add_vertex_semantics path5_live (by decide) 6).2.2.1 (by decide) (by decide)).2.2.1⟩


/-- C14: for in-range `u` and `v`, `add_edge(u, v)` leaves the whole state unchanged if
`u` or `v` is inactive; otherwise afterwards `v` occurs in the live list of `u` and `u` in
the live list of `v`, the former lists of `u` and `v` are prefixes of the new ones (their
entries are kept, in order), and every other live list, the number of lists, every active
flag and the snapshot are unchanged. -/
theorem C14_add_edge_postcondition (g : DynamicGraph) (u v : Int)
    (hu : InR g.adj_.length u) (hv : InR g.adj_.length v) :
    (idx g.active_ u false = false ∨ idx g.active_ v false = false →
      g.add_edge u v = some g) ∧
    (idx g.active_ u false = true → idx g.active_ v false = true →
      ∃ g1, g.add_edge u v = some g1 ∧
        v ∈ idx g1.adj_ u [] ∧ u ∈ idx g1.adj_ v [] ∧
        idx g.adj_ u [] <+: idx g1.adj_ u [] ∧ idx g.adj_ v [] <+: idx g1.adj_ v [] ∧
        (∀ a, a ≠ u → a ≠ v → idx g1.adj_ a [] = idx g.adj_ a []) ∧
        g1.adj_.length = g.adj_.length ∧
        g1.active_ = g.active_ ∧ g1.snapshot_adj_ = g.snapshot_adj_) := by
  have hc : (check_vertex u g.adj_.length && check_vertex v g.adj_.length) = true :=
    (check_both_iff u v _).mpr ⟨hu, hv⟩
  constructor
  · intro hact
    rw [add_edge_eq, if_pos hc, if_pos hact]
  · intro hau hav
    have hact : ¬ (idx g.active_ u false = false ∨ idx g.active_ v false = false) := by
      rw [hau, hav]; simp
    refine ⟨{ g with adj_ := adj_add g.adj_ u v }, by rw [add_edge_eq, if_pos hc, if_neg hact],
      ?_, ?_, ?_, ?_, ?_, length_adj_add _ _ _, rfl, rfl⟩
    · show v ∈ idx (adj_add g.adj_ u v) u []
      rw [mem_idx_adj_add hu hv]; exact Or.inr (Or.inl ⟨rfl, rfl⟩)
    · show u ∈ idx (adj_add g.adj_ u v) v []
      rw [mem_idx_adj_add hu hv]; exact Or.inr (Or.inr ⟨rfl, rfl⟩)
    · show idx g.adj_ u [] <+: idx (adj_add g.adj_ u v) u []
      rw [idx_adj_add hu hv]
      by_cases huv : u = v
      · rw [if_pos huv, if_pos huv.symm]
        exact (prefix_push_unique _ _).trans (prefix_push_unique _ _)
      · rw [if_neg huv, if_pos rfl]
        exact prefix_push_unique _ _
    · show idx g.adj_ v [] <+: idx (adj_add g.adj_ u v) v []
      rw [idx_adj_add hu hv, if_pos rfl]
      by_cases hvu : v = u
      · rw [if_pos hvu, hvu]
        exact (prefix_push_unique _ _).trans (prefix_push_unique _ _)
      · rw [if_neg hvu]
        exact prefix_push_unique _ _
    · intro a ha1 ha2
      show idx (adj_add g.adj_ u v) a [] = idx g.adj_ a []
      rw [idx_adj_add hu hv, if_neg ha2, if_neg ha1]

/-- Witness of C14: `add_edge(0, 2)` on the path graph. -/
theorem C14_add_edge_postcondition_witness :
    InR path5_live.adj_.length 0 ∧ InR path5_live.adj_.length 2 ∧
    idx path5_live.active_ 0 false = true ∧ idx path5_live.active_ 2 false = true ∧
    ∃ g1, path5_live.add_edge 0 2 = some g1 ∧
      (2 : Int) ∈ idx g1.adj_ 0 [] ∧ (0 : Int) ∈ idx g1.adj_ 2 [] ∧
      idx path5_live.adj_ 0 [] <+: idx g1.adj_ 0 [] ∧
      idx path5_live.adj_ 2 [] <+: idx g1.adj_ 2 [] ∧
      (∀ a, a ≠ 0 → a ≠ 2 → idx g1.adj_ a [] = idx path5_live.adj_ a []) ∧
      g1.adj_.length = path5_live.adj_.length ∧
      g1.active_ = path5_live.active_ ∧ g1.snapshot_adj_ = path5_live.snapshot_adj_ :=
  ⟨by decide, by decide, by decide, by decide,
    (C14_add_edge_postcondition path5_live 0 2 (by decide) (by decide)).2
      (by decide) (by decide)⟩

/-- C15: in every state reachable from construction by `add_vertex`, `remove_vertex`,
`add_edge`, `remove_edge` and `snapshot` calls, no live neighbour list and no snapshot
neighbour list contains the same handle twice. -/
theorem C15_no_multi_edges (g : DynamicGraph) (hg : Reachable g) :
    (∀ l ∈ g.adj_, l.Nodup) ∧ (∀ l ∈ g.snapshot_adj_, l.Nodup) :=
  hg.noMultiEdge

/-- Witness of C15: the frozen cycle 0-1-2-3-4-0. -/
theorem C15_no_multi_edges_witness :
    Reachable cycle5 ∧ (∀ l ∈ cycle5.adj_, l.Nodup) ∧ (∀ l ∈ cycle5.snapshot_adj_, l.Nodup) :=
  ⟨Reachable.snapshot (Reachable.run _ (Reachable.new 5) cycle5_live_built),
    C15_no_multi_edges cycle5
      (Reachable.snapshot (Reachable.run _ (Reachable.new 5) cycle5_live_built))⟩

/-- C16: on an engine with `N` vertices, `remove_vertex(v)` and `neighbors(v)` fail exactly
when `v` is not in `[0, N)`, `add_edge(u, v)` and `remove_edge(u, v)` fail exactly when `u`
or `v` is not in `[0, N)`; a failing call stops at its assertion, before any write, and so
yields no new state; a successful `remove_vertex(v)` clears the flag of `v` and changes
nothing else: the live lists, entries pointing at `v` included, and the snapshot are
kept. -/
theorem C16_out_of_range_handles_are_rejected (g : DynamicGraph) (u v : Int) :
    (g.remove_vertex v = none ↔ ¬ InR g.adj_.length v) ∧
    (g.neighbors v = none ↔ ¬ InR g.adj_.length v) ∧
    (g.add_edge u v = none ↔ ¬ InR g.adj_.length u ∨ ¬ InR g.adj_.length v) ∧
    (g.remove_edge u v = none ↔ ¬ InR g.adj_.length u ∨ ¬ InR g.adj_.length v) ∧
    (InR g.adj_.length v →
      g.remove_vertex v = some { g with active_ := g.active_.set v.toNat false }) := by
  have hboth : ¬ (check_vertex u g.adj_.length && check_vertex v g.adj_.length) = true ↔
      ¬ InR g.adj_.length u ∨ ¬ InR g.adj_.length v := by
    rw [check_both_iff]; tauto
  refine ⟨?_, ?_, ?_, ?_, ?_⟩
  · unfold remove_vertex
    rw [← check_vertex_iff]
    split <;> simp_all
  · unfold neighbors
    rw [← check_vertex_iff]
    split
    · split <;> simp_all
    · simp_all
  · rw [add_edge_eq, ← hboth]
    split
    · split <;> simp_all
    · simp_all
  · rw [remove_edge_eq, ← hboth]
    split <;> simp_all
  · intro hv
    unfold remove_vertex
    rw [if_pos ((check_vertex_iff _ _).mpr hv)]

/-- Witness of C16: `remove_vertex(3)` on the path graph. -/
theorem C16_out_of_range_handles_are_rejected_witness :
    InR path5_live.adj_.length 3 ∧
      path5_live.remove_vertex 3
        = some { path5_live with active_ := [true, true, true, false, true] } :=
  ⟨by decide,
    (C16_out_of_range_handles_are_rejected path5_live 0 3).2.2.2.2 (by decide)⟩

/-- C17 (the code departs from the claim): on the frozen cycle 0-1-2-3-4-0 all initial
degrees are 2 and the first extracted entry finalizes vertex 0 with core number 2; the
scan of its neighbours lowers the tracked degrees of the active, non-finalized vertices
1 and 4 from 2 to 1, below 2.  The vertices are then finalized in the order 0, 1, 2, 3, 4
with the core numbers 2, 1, 1, 1, 0, a sequence that decreases. -/
theorem C17_peeling_goes_below_finalized_core :
    (List.range 5).map (init_degree cycle5.view cycle5.active_) = [2, 2, 2, 2, 2] ∧
    seed_pq cycle5.active_ [2, 2, 2, 2, 2] 5 = [(2, 0), (2, 1), (2, 2), (2, 3), (2, 4)] ∧
    ((idx cycle5.view 0 []).foldl
        (peel_visit cycle5.active_ [true, false, false, false, false])
        ([2, 2, 2, 2, 2], [(2, 1), (2, 2), (2, 3), (2, 4)])).1 = [2, 1, 2, 2, 1] ∧
    cycle5.k_cores_trace
      = some ([2, 1, 1, 1, 0], [(2, 0), (1, 1), (1, 2), (1, 3), (0, 4)], 10) :=
  ⟨by decide, by decide, by decide, by decide⟩

/-- C18: on every well-formed engine state, hence on every reachable one, the loop of
`k_cores()` empties the priority structure within its budget; it performs at most as many
insertions as there are active vertices plus entries in the view's neighbour lists; every
active vertex is finalized exactly once, with the degree recorded in the entry extracted
for it; and the result has length `N` with the entry 0 for every inactive vertex, which is
never finalized. -/
theorem C18_k_cores_finalizes_each_active_vertex_once (g : DynamicGraph) (hg : WF g) :
    ∃ core T pushes, g.k_cores_trace = some (core, T, pushes) ∧ g.k_cores = some core ∧
      core.length = g.adj_.length ∧
      pushes ≤ num_active g.active_ g.adj_.length + (g.view.map List.length).sum ∧
      (∀ v, InR g.adj_.length v → idx g.active_ v false = true →
        (T.map Prod.snd).count v = 1) ∧
      (∀ e ∈ T, idx g.active_ e.2 false = true ∧ idx core e.2 0 = e.1) ∧
      (∀ v, InR g.adj_.length v → idx g.active_ v false = false →
        v ∉ T.map Prod.snd ∧ idx core v 0 = 0) := by
  have hlen := hg.view_length
  obtain ⟨core, T, pushes, h1, h2, h3, h4, h5, h6, h7, h8⟩ :=
    k_cores_trace_spec g (by rw [hlen]; exact hg.1)
  rw [hlen] at h3 h4 h6 h7 h8
  refine ⟨core, T, pushes, h1, h2, h3, h4, ?_, ?_, ?_⟩
  · intro v hv ha
    exact List.count_eq_one_of_mem h5 (h6 v hv ha)
  · intro e he
    exact ⟨(h7 e he).2.1, (h7 e he).2.2⟩
  · intro v hv ha
    have hT : v ∉ T.map Prod.snd := by
      intro hmem
      obtain ⟨e, he, hev⟩ := List.mem_map.mp hmem
      have := (h7 e he).2.1
      rw [hev, ha] at this
      cases this
    exact ⟨hT, h8 v hv hT⟩

/-- Witness of C18: the frozen path graph 0-1-2-3-4. -/
theorem C18_k_cores_finalizes_each_active_vertex_once_witness :
    WF path5 ∧
    ∃ core T pushes, path5.k_cores_trace = some (core, T, pushes) ∧
      path5.k_cores = some core ∧ core.length = path5.adj_.length ∧
      pushes ≤ num_active path5.active_ path5.adj_.length
        + (path5.view.map List.length).sum ∧
      (∀ v, InR path5.adj_.length v → idx path5.active_ v false = true →
        (T.map Prod.snd).count v = 1) ∧
      (∀ e ∈ T, idx path5.active_ e.2 false = true ∧ idx core e.2 0 = e.1) ∧
      (∀ v, InR path5.adj_.length v → idx path5.active_ v false = false →
        v ∉ T.map Prod.snd ∧ idx core v 0 = 0) :=
  ⟨by decide, C18_k_cores_finalizes_each_active_vertex_once path5 (by decide)⟩

/-- C19: for valid endpoints `s` and `t`, the breadth-first search of `min_cost_routing`
returns; when it has not found the target then `s ≠ t` and the reconstruction is not
run; when it has found the target, following the parent pointers from `t` lowers the
recorded depth by one at each step and stops at `s` after exactly `depth[t]` steps, so
that `cur = s` at the test of the defensive branch. -/
theorem C19_reconstruction_reaches_source (g : DynamicGraph) (hg : WF g) (s t md : Int)
    (hs : InR g.adj_.length s) (ht : InR g.adj_.length t)
    (has : idx g.active_ s false = true) (_hat : idx g.active_ t false = true) :
    ∃ found parent depth,
      bfs_loop g.view g.active_ t md g.view.length (List.replicate g.view.length (-1))
        ((List.replicate g.view.length (-1)).set s.toNat 0) [s]
        = some (found, parent, depth) ∧
      (found = false → s ≠ t) ∧
      (found = true →
        ∃ ch, reconstruct parent s g.view.length t [t] = some (s, t :: ch) ∧
          (ch.length : Int) = idx depth t 0 ∧
          List.Chain' (fun c a => idx depth a 0 + 1 = idx depth c 0) (t :: ch)) := by
  have hlen := hg.view_length
  rw [← hlen] at hs ht
  obtain ⟨found, p1, d1, q1, u1, b1, m1, hres, hinv, hft, hff⟩ :=
    bfs_loop_spec g.view.length _ _ _ s 0 g.view.length
      (@BfsInv.init g.view g.active_ s t md hg.view_inRange hs has) (le_refl _)
  refine ⟨found, p1, d1, hres, ?_, ?_⟩
  · intro hf
    have hq1 := hff hf
    subst hq1
    exact (hinv.proc s hs (by rw [hinv.ds]; omega) (by simp)).1
  · intro hf
    obtain ⟨q2, hq2⟩ := hft hf
    subst hq2
    obtain ⟨_, htd⟩ := hinv.qin t (List.mem_cons_self _ _)
    have hdnn := hinv.dnn t ht
    have hcnt := hinv.cnt t ht htd
    obtain ⟨k, hk⟩ : ∃ k : Nat, idx d1 t 0 = (k : Int) := ⟨(idx d1 t 0).toNat, by omega⟩
    obtain ⟨ch, hrec, hl, hchain⟩ :=
      reconstruct_depths hinv k g.view.length t [t] ht hk (by omega)
    exact ⟨ch, hrec, by rw [hl, hk], hchain⟩

/-- Witness of C19: the pair (0, 4) on the frozen path graph with bound 4. -/
theorem C19_reconstruction_reaches_source_witness :
    WF path5 ∧ InR path5.adj_.length 0 ∧ InR path5.adj_.length 4 ∧
    idx path5.active_ 0 false = true ∧ idx path5.active_ 4 false = true ∧
    ∃ found parent depth,
      bfs_loop path5.view path5.active_ 4 4 path5.view.length
        (List.replicate path5.view.length (-1))
        ((List.replicate path5.view.length (-1)).set (0 : Int).toNat 0) [0]
        = some (found, parent, depth) ∧
      (found = false → (0 : Int) ≠ 4) ∧
      (found = true →
        ∃ ch, reconstruct parent 0 path5.view.length 4 [4] = some (0, 4 :: ch) ∧
          (ch.length : Int) = idx depth 4 0 ∧
          List.Chain' (fun c a => idx depth a 0 + 1 = idx depth c 0) (4 :: ch)) :=
  ⟨by decide, by decide, by decide, by decide, by decide,
    C19_reconstruction_reaches_source path5 (by decide) 0 4 4 (by decide) (by decide)
      (by decide) (by decide)⟩

/-- C20: in every state reachable from construction by `add_vertex`, `remove_vertex`,
`add_edge`, `remove_edge` and `snapshot` calls, the live adjacency vector, the snapshot
adjacency vector and the flag vector have the same length `N` and every handle stored in a
live or snapshot neighbour list lies in `[0, N)`; and `neighbors` (on an in-range handle),
`min_cost_routing` and `k_cores`, run with a bounds check on every vector access, return
their results without any check failing. -/
theorem C20_index_safety (g : DynamicGraph) (hg : Reachable g) :
    g.active_.length = g.adj_.length ∧ g.snapshot_adj_.length = g.adj_.length ∧
    (∀ l ∈ g.adj_, ∀ x ∈ l, 0 ≤ x ∧ x.toNat < g.adj_.length) ∧
    (∀ l ∈ g.snapshot_adj_, ∀ x ∈ l, 0 ≤ x ∧ x.toNat < g.adj_.length) ∧
    (∀ v, InR g.adj_.length v →
      ∃ l, g.neighbors_checked v = some l ∧ g.neighbors v = some l) ∧
    (∀ pairs max_depth, ∃ paths,
      g.min_cost_routing_checked pairs max_depth = some paths ∧
      g.min_cost_routing pairs max_depth = some paths) ∧
    (∃ core, g.k_cores_checked = some core ∧ g.k_cores = some core) := by
  have hwf := hg.wf
  refine ⟨hwf.1, hwf.2.1, hwf.2.2.1, hwf.2.2.2, ?_, ?_, ?_⟩
  · intro v hv
    obtain ⟨h1, l, h2⟩ := neighbors_checked_eq hwf hv
    exact ⟨l, by rw [h1, h2], h2⟩
  · intro pairs max_depth
    obtain ⟨paths, h1, _⟩ := min_cost_routing_spec hwf pairs max_depth
    exact ⟨paths, by rw [min_cost_routing_checked_eq hwf, h1], h1⟩
  · obtain ⟨core, h1, _⟩ := k_cores_total g
    exact ⟨core, by rw [k_cores_checked_eq hwf, h1], h1⟩

/-- Witness of C20: the frozen cycle 0-1-2-3-4-0. -/
theorem C20_index_safety_witness :
    Reachable cycle5 ∧
    cycle5.active_.length = cycle5.adj_.length ∧
    cycle5.snapshot_adj_.length = cycle5.adj_.length ∧
    (∀ l ∈ cycle5.adj_, ∀ x ∈ l, 0 ≤ x ∧ x.toNat < cycle5.adj_.length) ∧
    (∀ l ∈ cycle5.snapshot_adj_, ∀ x ∈ l, 0 ≤ x ∧ x.toNat < cycle5.adj_.length) ∧
    (∀ v, InR cycle5.adj_.length v →
      ∃ l, cycle5.neighbors_checked v = some l ∧ cycle5.neighbors v = some l) ∧
    (∀ pairs max_depth, ∃ paths,
      cycle5.min_cost_routing_checked pairs max_depth = some paths ∧
      cycle5.min_cost_routing pairs max_depth = some paths) ∧
    (∃ core, cycle5.k_cores_checked = some core ∧ cycle5.k_cores = some core) :=
  ⟨Reachable.snapshot (Reachable.run _ (Reachable.new 5) cycle5_live_built),
    C20_index_safety cycle5
      (Reachable.snapshot (Reachable.run _ (Reachable.new 5) cycle5_live_built))⟩

end DynamicGraph
